import Mathlib

/-!
Verification development for a red-black tree implementation
(`rbtree.py`): an ordered container with membership test, insertion with
rebalancing driven by a path-based cursor (`NodeWalker`), in-order
traversal, depth measurement and a structural invariant checker.

The Python `Optional[RBNode]` is modelled by a single inductive type
`RBNode` whose `nil` constructor stands for Python `None`.  Mutation is
modelled by explicit state passing: a `NodeWalker` holds the whole tree
together with the list of directions from the root to the current
position (the Python walker stores the list of node references along
that path; since every node is exclusively owned by its parent, the two
representations are in bijection, and the Python identity tests
`parent.left is child` / `c is l` are rendered through the recorded
directions, with the degenerate `None is None` cases spelled out).
Operations that can raise in Python return `Option`, with `none`
standing for the raised error; the fixup loop is given explicit fuel,
and running out of fuel is also `none`.
-/

set_option maxHeartbeats 1600000

namespace RBT

/-- Colors of red-black tree nodes (Python class `NodeColor`). -/
inductive NodeColor : Type
  | RED
  | BLACK
deriving DecidableEq, Repr

/-- Walking directions (Python class `Direction`). -/
inductive Direction : Type
  | LEFT
  | RIGHT
deriving DecidableEq, Repr

/-- Python `Optional[RBNode[T]]`: `nil` is Python `None`, `node` is a
dataclass instance with fields `value`, `color`, `left`, `right`. -/
inductive RBNode (α : Type) : Type
  | nil
  | node (value : α) (color : NodeColor) (left right : RBNode α)
deriving DecidableEq, Repr

namespace RBNode

variable {α : Type}

/-- In-order traversal, Python `RBNode.__iter__` (with `RBTree.__iter__`
yielding nothing on an empty root). -/
def inorder : RBNode α → List α
  | nil => []
  | node v _ l r => inorder l ++ v :: inorder r

/-- Python `RBNode.nodes`: in-order list of the (sub)nodes themselves. -/
def nodesList : RBNode α → List (RBNode α)
  | nil => []
  | node v c l r => nodesList l ++ node v c l r :: nodesList r

/-- Python `RBNode.depth` on a node; the `nil` case models the spec-level
convention for the public depth of an empty tree.
Modelled from the spec: the source only defines `depth` on non-empty
nodes (the driver calls `t.root.depth()`), and the spec fixes
`depth() = 0` for an absent root. -/
def depth : RBNode α → Nat
  | nil => 0
  | node _ _ l r => max (max 0 (depth l)) (depth r) + 1

/-- Number of nodes of the tree. -/
def size : RBNode α → Nat
  | nil => 0
  | node _ _ l r => size l + size r + 1

/-- The root of the tree, if present, is BLACK (`nil` counts as black). -/
def rootBlack : RBNode α → Bool
  | nil => true
  | node _ c _ _ => decide (c = NodeColor.BLACK)

/-- The tree is a node whose color is RED. -/
def isRedNode : RBNode α → Bool
  | node _ NodeColor.RED _ _ => true
  | _ => false

/-- The tree is absent or a BLACK node (the `RBNode(color=BLACK)|None`
patterns of the fixup `match`). -/
def blackOrNil : RBNode α → Bool
  | nil => true
  | node _ NodeColor.BLACK _ _ => true
  | _ => false

/-- The tree is absent (`None`). -/
def isNilT : RBNode α → Bool
  | nil => true
  | _ => false

/-- Left child of a node (`nil` for an absent tree). -/
def childLeft : RBNode α → RBNode α
  | nil => nil
  | node _ _ l _ => l

/-- Right child of a node (`nil` for an absent tree). -/
def childRight : RBNode α → RBNode α
  | nil => nil
  | node _ _ _ r => r

/-- No RED node has a RED child, absent children counting as BLACK. -/
def noRedRed : RBNode α → Bool
  | nil => true
  | node _ c l r =>
    (if c = NodeColor.RED then rootBlack l && rootBlack r else true) &&
      noRedRed l && noRedRed r

/-- A node is RED and has a present RED child: the condition checked for
every node inside the `for n in self.root.nodes()` loop of
`RBTree.invariant`. -/
def redWithRedChild : RBNode α → Bool
  | node _ NodeColor.RED l r => isRedNode l || isRedNode r
  | _ => false

/-- Python inner function `bpbalance` of `RBTree.invariant`: the
black-height of the tree, or `none` if some node has children of
distinct black-heights. -/
def bpbalance : RBNode α → Option Nat
  | nil => some 1
  | node _ c l r =>
    match bpbalance l with
    | none => none
    | some bl =>
      match bpbalance r with
      | none => none
      | some br =>
        if bl ≠ br then none
        else some (bl + (if c = NodeColor.BLACK then 1 else 0))

/-- Python `RBTree.invariant`. -/
def invariant (t : RBNode α) : Bool :=
  match t with
  | nil => true
  | node _ rc _ _ =>
    if rc = NodeColor.RED then false
    else if (nodesList t).any redWithRedChild then false
    else (bpbalance t).isSome

/-- All values stored in the tree satisfy `p`. -/
def allB (p : α → Bool) : RBNode α → Bool
  | nil => true
  | node v _ l r => p v && allB p l && allB p r

/-- Weak binary-search-tree property maintained by the implementation:
left values are `≤` the node value, right values are `≥` it.  (The
strict version is not preserved by rotations once duplicate values are
inserted, but this weak version is, and it suffices for `contains` and
for sortedness of the in-order traversal.) -/
def wbst [LinearOrder α] : RBNode α → Bool
  | nil => true
  | node v _ l r =>
    allB (fun y => decide (y ≤ v)) l && allB (fun y => decide (v ≤ y)) r &&
      wbst l && wbst r

/-- Python `RBTree.__contains__`. -/
def contains [LinearOrder α] : RBNode α → α → Bool
  | nil, _ => false
  | node x _ l r, v =>
    if v = x then true
    else if v < x then contains l v
    else contains r v

/-- The directions pushed by the descent loop of `RBTree.add`: go left
when the new value is less than the node value, right otherwise, until
an absent slot is reached. -/
def findSlot [LinearOrder α] (v : α) : RBNode α → List Direction
  | nil => []
  | node x _ l r =>
    if v < x then Direction.LEFT :: findSlot v l
    else Direction.RIGHT :: findSlot v r

end RBNode

open RBNode

variable {α : Type}

/-- Subtree of `t` at the end of a direction path (`none` when the path
steps below an absent slot, which cannot happen for walker paths). -/
def subtreeAt : RBNode α → List Direction → Option (RBNode α)
  | t, [] => some t
  | RBNode.nil, _ :: _ => none
  | RBNode.node _ _ l _, Direction.LEFT :: ds => subtreeAt l ds
  | RBNode.node _ _ _ r, Direction.RIGHT :: ds => subtreeAt r ds

/-- Replace the subtree of `t` at the end of a direction path. -/
def replaceAt : RBNode α → List Direction → RBNode α → RBNode α
  | _, [], s => s
  | RBNode.nil, _ :: _, _ => RBNode.nil
  | RBNode.node v c l r, Direction.LEFT :: ds, s => RBNode.node v c (replaceAt l ds s) r
  | RBNode.node v c l r, Direction.RIGHT :: ds, s => RBNode.node v c l (replaceAt r ds s)

/-- Python class `NodeWalker`: the whole tree plus the directions from
the root to the current position (Python stores the node references
along this path; `leafDirection` is Python `leaf_direction`). -/
structure NodeWalker (α : Type) : Type where
  tree : RBNode α
  dirs : List Direction
  leafDirection : Direction
deriving DecidableEq, Repr

namespace NodeWalker

variable {α : Type}

/-- Python `NodeWalker.current`; `some RBNode.nil` is a Python `None`
current (an empty slot at the end of the path). -/
def current (w : NodeWalker α) : Option (RBNode α) := subtreeAt w.tree w.dirs

/-- Python `NodeWalker.is_root`. -/
def isRoot (w : NodeWalker α) : Bool := decide (w.dirs = [])

/-- Python `NodeWalker.parent`: `none` models the raised `ValueError`
when the walker is at the root. -/
def parent (w : NodeWalker α) : Option (RBNode α) :=
  if w.dirs = [] then none else subtreeAt w.tree w.dirs.dropLast

/-- Python `NodeWalker.up`: `none` models the raised `ValueError`. -/
def up (w : NodeWalker α) : Option (NodeWalker α) :=
  if w.dirs = [] then none else some { w with dirs := w.dirs.dropLast }

/-- Python `NodeWalker.left`: fails when the current position is an
empty slot, otherwise pushes the left child, recording the direction
when that child is absent. -/
def left (w : NodeWalker α) : Option (NodeWalker α) :=
  match subtreeAt w.tree w.dirs with
  | some (RBNode.node _ _ l _) =>
    some { w with dirs := w.dirs ++ [Direction.LEFT],
                  leafDirection := match l with
                    | RBNode.nil => Direction.LEFT
                    | _ => w.leafDirection }
  | _ => none

/-- Python `NodeWalker.right`. -/
def right (w : NodeWalker α) : Option (NodeWalker α) :=
  match subtreeAt w.tree w.dirs with
  | some (RBNode.node _ _ _ r) =>
    some { w with dirs := w.dirs ++ [Direction.RIGHT],
                  leafDirection := match r with
                    | RBNode.nil => Direction.RIGHT
                    | _ => w.leafDirection }
  | _ => none

/-- Python `NodeWalker.update`: overwrite the slot at the tail of the
path.  (Python repoints the parent's child on the side given by
`is_left_child`, which for a reachable walker is the last recorded
direction; at the root it repoints the tree's root.) -/
def update (w : NodeWalker α) (s : RBNode α) : NodeWalker α :=
  { w with tree := replaceAt w.tree w.dirs s }

end NodeWalker

/-- Python `RBTree._left_rotate`: `none` models the failed
`assert x.right` (or an attribute error on an absent current node). -/
def leftRotate (w : NodeWalker α) : Option (NodeWalker α) :=
  match w.current with
  | some (RBNode.node xv xc xl (RBNode.node yv yc yl yr)) =>
    (w.update (RBNode.node yv yc (RBNode.node xv xc xl yl) yr)).left
  | _ => none

/-- Python `RBTree._right_rotate`. -/
def rightRotate (w : NodeWalker α) : Option (NodeWalker α) :=
  match w.current with
  | some (RBNode.node yv yc (RBNode.node xv xc xl xr) yr) =>
    (w.update (RBNode.node xv xc xl (RBNode.node yv yc xr yr))).right
  | _ => none

/-- Labels for the six `case` arms of the `match` inside
`RBTree._insert_fix`, plus the silent fall-through when no arm matches. -/
inductive FixCase : Type
  | one
  | two
  | three
  | oneM
  | twoM
  | threeM
  | fallthrough
deriving DecidableEq, Repr

/-- The `match` dispatch of `RBTree._insert_fix`, tried in source order.
`c` is the node captured before the two `up` moves and `(d1, d2)` its
position below the grandparent `RBNode _ _ gl gr`.  The identity guards
`c is l`, `c is r`, `c in (l, r)` are rendered positionally; since every
node has exactly one owner, `c` (a real node) is the object bound at a
grandchild slot exactly when `(d1, d2)` addresses that slot, and when
`c` is `None` the Python `is` also accepts any absent slot bound by the
pattern. -/
def dispatch [DecidableEq α] (c : RBNode α) (d1 d2 : Direction)
    (gl gr : RBNode α) : FixCase :=
  if !isNilT gl && isRedNode gr &&
      (decide (d1 = Direction.LEFT) ||
        (isNilT c && (isNilT (childLeft gl) || isNilT (childRight gl)))) then
    FixCase.one
  else if !isNilT gl && blackOrNil gr &&
      ((decide (d1 = Direction.LEFT) && decide (d2 = Direction.RIGHT)) ||
        (isNilT c && isNilT (childRight gl))) then
    FixCase.two
  else if !isNilT gl && blackOrNil gr &&
      ((decide (d1 = Direction.LEFT) && decide (d2 = Direction.LEFT)) ||
        (isNilT c && isNilT (childLeft gl))) then
    FixCase.three
  else if !isNilT gr && isRedNode gl &&
      (decide (d1 = Direction.RIGHT) ||
        (isNilT c && (isNilT (childLeft gr) || isNilT (childRight gr)))) then
    FixCase.oneM
  else if blackOrNil gl && !isNilT gr &&
      ((decide (d1 = Direction.RIGHT) && decide (d2 = Direction.LEFT)) ||
        (isNilT c && isNilT (childLeft gr))) then
    FixCase.twoM
  else if blackOrNil gl && !isNilT gr &&
      ((decide (d1 = Direction.RIGHT) && decide (d2 = Direction.RIGHT)) ||
        (isNilT c && isNilT (childRight gr))) then
    FixCase.threeM
  else FixCase.fallthrough

/-- Execution of the selected `case` arm of `RBTree._insert_fix` on the
walker `w2` standing at the grandparent `RBNode gv gc gl gr`
(recoloring mutations are rendered as `update` at the grandparent). -/
def fixArm [DecidableEq α] (w2 : NodeWalker α) (c : RBNode α)
    (d1 d2 : Direction) (gv : α) (gl gr : RBNode α) :
    Option (NodeWalker α) :=
  match dispatch c d1 d2 gl gr with
  | FixCase.one =>
    match gl, gr with
    | RBNode.node pv _ pl pr, RBNode.node uv _ ul ur =>
      some (w2.update (RBNode.node gv NodeColor.RED
        (RBNode.node pv NodeColor.BLACK pl pr)
        (RBNode.node uv NodeColor.BLACK ul ur)))
    | _, _ => none
  | FixCase.two => (w2.left).bind leftRotate
  | FixCase.three =>
    match gl with
    | RBNode.node pv _ pl pr =>
      rightRotate (w2.update (RBNode.node gv NodeColor.RED
        (RBNode.node pv NodeColor.BLACK pl pr) gr))
    | RBNode.nil => none
  | FixCase.oneM =>
    match gl, gr with
    | RBNode.node uv _ ul ur, RBNode.node pv _ pl pr =>
      some (w2.update (RBNode.node gv NodeColor.RED
        (RBNode.node uv NodeColor.BLACK ul ur)
        (RBNode.node pv NodeColor.BLACK pl pr)))
    | _, _ => none
  | FixCase.twoM => (w2.right).bind rightRotate
  | FixCase.threeM =>
    match gr with
    | RBNode.node pv _ pl pr =>
      leftRotate (w2.update (RBNode.node gv NodeColor.RED gl
        (RBNode.node pv NodeColor.BLACK pl pr)))
    | RBNode.nil => none
  | FixCase.fallthrough => some w2

/-- One iteration of the body of the `while` loop of
`RBTree._insert_fix`: capture `c = z.current()`, move `z.up().up()`,
and run the matching `case` arm.  `none` models a raised error. -/
def fixBody [DecidableEq α] (w : NodeWalker α) : Option (NodeWalker α) :=
  match w.current with
  | none => none
  | some c =>
    match w.up with
    | none => none
    | some w1 =>
      match w1.up with
      | none => none
      | some w2 =>
        match w2.current with
        | some (RBNode.node gv _ gl gr) =>
          fixArm w2 c (w1.dirs.getLastD Direction.LEFT)
            (w.dirs.getLastD Direction.LEFT) gv gl gr
        | some RBNode.nil => some w2
        | none => none

/-- Which `case` arm the next iteration of the fixup loop would run. -/
def dispatchOf [DecidableEq α] (w : NodeWalker α) : Option FixCase :=
  match w.current with
  | none => none
  | some c =>
    match w.up with
    | none => none
    | some w1 =>
      match w1.up with
      | none => none
      | some w2 =>
        match w2.current with
        | some (RBNode.node _ _ gl gr) =>
          some (dispatch c (w1.dirs.getLastD Direction.LEFT)
            (w.dirs.getLastD Direction.LEFT) gl gr)
        | _ => none

/-- The color of the root of a tree, `none` when absent (dereferencing
`None.color` raises in Python). -/
def rootColorOpt : RBNode α → Option NodeColor
  | RBNode.nil => none
  | RBNode.node _ c _ _ => some c

/-- The `while` condition of `RBTree._insert_fix`:
`not z.is_root() and z.parent().color == NodeColor.RED`. -/
def fixCond (w : NodeWalker α) : Bool :=
  !w.isRoot && decide (w.parent.bind rootColorOpt = some NodeColor.RED)

/-- The `while` loop of `RBTree._insert_fix`, with explicit fuel
(`none` when the fuel runs out, which never happens from a reachable
state, or when an iteration raises). -/
def fixLoop [DecidableEq α] : Nat → NodeWalker α → Option (NodeWalker α)
  | 0, _ => none
  | n + 1, w =>
    if fixCond w then
      match fixBody w with
      | some w' => fixLoop n w'
      | none => none
    else some w

/-- Python `RBTree._insert_fix`: run the loop, then execute the final
`self.root.color = NodeColor.BLACK` (`none` if the root is absent). -/
def insertFix [DecidableEq α] (w : NodeWalker α) : Option (RBNode α) :=
  match fixLoop (w.dirs.length + 2) w with
  | none => none
  | some w' =>
    match w'.tree with
    | RBNode.nil => none
    | RBNode.node v _ l r => some (RBNode.node v NodeColor.BLACK l r)

/-- Python `RBTree.add`: descend to the first empty slot, attach a fresh
RED node there via `update`, then run the fixup. -/
def add [LinearOrder α] (t : RBNode α) (v : α) : Option (RBNode α) :=
  let p := findSlot v t
  insertFix
    { tree := replaceAt t p (RBNode.node v NodeColor.RED RBNode.nil RBNode.nil),
      dirs := p,
      leafDirection := p.getLastD Direction.LEFT }

/-- Run a sequence of `add` calls from a given tree. -/
def addAllFrom [LinearOrder α] : RBNode α → List α → Option (RBNode α)
  | t, [] => some t
  | t, v :: vs =>
    match add t v with
    | some t' => addAllFrom t' vs
    | none => none

/-- Run a sequence of `add` calls from the empty tree. -/
def addList [LinearOrder α] (vs : List α) : Option (RBNode α) :=
  addAllFrom RBNode.nil vs

/-- `noRedRed` everywhere except that the node at the end of the path
may be RED below a RED parent (the single violation the fixup loop is
chasing). -/
def nrrE : RBNode α → List Direction → Bool
  | t, [] => noRedRed t
  | RBNode.nil, _ :: _ => false
  | RBNode.node _ c l r, Direction.LEFT :: ds =>
    nrrE l ds && noRedRed r &&
      (if c = NodeColor.RED then rootBlack r && (decide (ds = []) || rootBlack l)
       else true)
  | RBNode.node _ c l r, Direction.RIGHT :: ds =>
    nrrE r ds && noRedRed l &&
      (if c = NodeColor.RED then rootBlack l && (decide (ds = []) || rootBlack r)
       else true)

/-- Invariant of the fixup loop (the CLRS red-black insertion loop
invariant, phrased on the walker state): the current node is RED, the
only possible red-red violation is between it and its parent, black
heights are globally consistent, the root is BLACK unless the current
node is the root, and the weak search property holds. -/
def FixInv [LinearOrder α] (w : NodeWalker α) : Prop :=
  (∃ cv cl cr, w.current = some (RBNode.node cv NodeColor.RED cl cr)) ∧
    nrrE w.tree w.dirs = true ∧
    (bpbalance w.tree).isSome ∧
    (w.dirs ≠ [] → rootBlack w.tree = true) ∧
    wbst w.tree = true

/-- The three red-black conditions checked by `invariant`, together with
the weak search property: the state after any completed `add`. -/
def GoodW [LinearOrder α] (t : RBNode α) : Prop :=
  rootBlack t = true ∧ noRedRed t = true ∧ (bpbalance t).isSome ∧ wbst t = true

end RBT

namespace RBT

open RBNode

section PathLemmas

variable {α : Type}

theorem subtreeAt_append (t : RBNode α) (q p : List Direction) :
    subtreeAt t (q ++ p) = (subtreeAt t q).bind fun g => subtreeAt g p := by
  induction q generalizing t with
  | nil => simp [subtreeAt]
  | cons d ds ih =>
    cases t with
    | nil => simp [subtreeAt]
    | node v c l r => cases d <;> simp [subtreeAt, ih]

theorem subtreeAt_append_some {t g : RBNode α} {q p : List Direction}
    (h : subtreeAt t (q ++ p) = some g) :
    ∃ m, subtreeAt t q = some m ∧ subtreeAt m p = some g := by
  rw [subtreeAt_append] at h
  cases hm : subtreeAt t q with
  | none => rw [hm] at h; simp at h
  | some m => rw [hm] at h; exact ⟨m, rfl, h⟩

theorem subtreeAt_replaceAt_self {t g : RBNode α} {q : List Direction}
    (h : subtreeAt t q = some g) (s : RBNode α) :
    subtreeAt (replaceAt t q s) q = some s := by
  induction q generalizing t with
  | nil => simp [subtreeAt, replaceAt]
  | cons d ds ih =>
    cases t with
    | nil => simp [subtreeAt] at h
    | node v c l r =>
      cases d <;> simp [subtreeAt, replaceAt] at h ⊢ <;> exact ih h

theorem replaceAt_append {t g : RBNode α} {q : List Direction}
    (h : subtreeAt t q = some g) (p : List Direction) (s : RBNode α) :
    replaceAt t (q ++ p) s = replaceAt t q (replaceAt g p s) := by
  induction q generalizing t with
  | nil => simp [subtreeAt] at h; subst h; simp [replaceAt]
  | cons d ds ih =>
    cases t with
    | nil => simp [subtreeAt] at h
    | node v c l r =>
      cases d <;> simp [subtreeAt] at h <;> simp [replaceAt, ih h]

theorem replaceAt_replaceAt (t : RBNode α) (q : List Direction) (a b : RBNode α) :
    replaceAt (replaceAt t q a) q b = replaceAt t q b := by
  induction q generalizing t with
  | nil => simp [replaceAt]
  | cons d ds ih =>
    cases t with
    | nil => simp [replaceAt]
    | node v c l r => cases d <;> simp [replaceAt, ih]

theorem rootBlack_replaceAt (t : RBNode α) (d : Direction) (ds : List Direction)
    (s : RBNode α) : rootBlack (replaceAt t (d :: ds) s) = rootBlack t := by
  cases t with
  | nil => cases d <;> simp [replaceAt]
  | node v c l r => cases d <;> simp [replaceAt, rootBlack]

theorem bpbalance_replaceAt {t g : RBNode α} {q : List Direction}
    (h : subtreeAt t q = some g) {s : RBNode α}
    (hbal : bpbalance s = bpbalance g) :
    bpbalance (replaceAt t q s) = bpbalance t := by
  induction q generalizing t with
  | nil => simp [subtreeAt] at h; subst h; simpa [replaceAt] using hbal
  | cons d ds ih =>
    cases t with
    | nil => simp [subtreeAt] at h
    | node v c l r =>
      cases d <;> simp [subtreeAt] at h <;>
        simp [replaceAt, bpbalance, ih h]

theorem inorder_replaceAt {t g : RBNode α} {q : List Direction}
    (h : subtreeAt t q = some g) {s : RBNode α}
    (hio : inorder s = inorder g) :
    inorder (replaceAt t q s) = inorder t := by
  induction q generalizing t with
  | nil => simp [subtreeAt] at h; subst h; simpa [replaceAt] using hio
  | cons d ds ih =>
    cases t with
    | nil => simp [subtreeAt] at h
    | node v c l r =>
      cases d <;> simp [subtreeAt] at h <;>
        simp [replaceAt, inorder, ih h]

theorem bpbalance_subtreeAt {t g : RBNode α} {q : List Direction}
    (ht : (bpbalance t).isSome) (h : subtreeAt t q = some g) :
    (bpbalance g).isSome := by
  induction q generalizing t with
  | nil => simp [subtreeAt] at h; subst h; exact ht
  | cons d ds ih =>
    cases t with
    | nil => simp [subtreeAt] at h
    | node v c l r =>
      rw [show bpbalance (RBNode.node v c l r) =
          (match bpbalance l with
           | none => none
           | some bl =>
             match bpbalance r with
             | none => none
             | some br =>
               if bl ≠ br then none
               else some (bl + (if c = NodeColor.BLACK then 1 else 0))) from rfl] at ht
      cases hbl : bpbalance l with
      | none => rw [hbl] at ht; simp at ht
      | some bl =>
        cases hbr : bpbalance r with
        | none => rw [hbl, hbr] at ht; simp at ht
        | some br =>
          cases d <;> simp [subtreeAt] at h
          · exact ih (t := l) (by simp [hbl]) h
          · exact ih (t := r) (by simp [hbr]) h

end PathLemmas

end RBT


namespace RBT

open RBNode

section NrrLemmas

variable {α : Type}

theorem rootBlack_eq_not_isRedNode (t : RBNode α) :
    rootBlack t = !isRedNode t := by
  cases t with
  | nil => rfl
  | node v c l r => cases c <;> rfl

theorem blackOrNil_eq_rootBlack (t : RBNode α) : blackOrNil t = rootBlack t := by
  cases t with
  | nil => rfl
  | node v c l r => cases c <;> rfl

theorem noRedRed_node_red {v : α} {l r : RBNode α} :
    noRedRed (RBNode.node v NodeColor.RED l r) = true ↔
      rootBlack l = true ∧ rootBlack r = true ∧
        noRedRed l = true ∧ noRedRed r = true := by
  simp [noRedRed, and_assoc]

theorem noRedRed_node_black {v : α} {l r : RBNode α} :
    noRedRed (RBNode.node v NodeColor.BLACK l r) = true ↔
      noRedRed l = true ∧ noRedRed r = true := by
  simp [noRedRed]

theorem nrrE_nil_path (t : RBNode α) : nrrE t [] = noRedRed t := by
  cases t <;> rfl

theorem nrrE_extract {t g : RBNode α} {q ds : List Direction}
    (h : nrrE t (q ++ ds) = true) (hs : subtreeAt t q = some g) :
    nrrE g ds = true := by
  induction q generalizing t with
  | nil => simp [subtreeAt] at hs; subst hs; simpa using h
  | cons d qs ih =>
    cases t with
    | nil => simp [subtreeAt] at hs
    | node v c l r =>
      cases d <;> simp only [subtreeAt] at hs <;>
        simp only [List.cons_append, nrrE, Bool.and_eq_true] at h <;>
        exact ih h.1.1 hs

theorem nrrE_replace {t g s : RBNode α} {q ds : List Direction}
    (ds' : List Direction)
    (hs : subtreeAt t q = some g) (h : nrrE t (q ++ ds) = true)
    (hds : ds ≠ []) (hset : nrrE s ds' = true)
    (hside : ds' = [] ∨ (rootBlack g = true → rootBlack s = true)) :
    nrrE (replaceAt t q s) (q ++ ds') = true := by
  induction q generalizing t with
  | nil =>
    have hg : t = g := by simpa [subtreeAt] using hs
    subst hg
    simpa [replaceAt] using hset
  | cons d qs ih =>
    cases t with
    | nil => simp [subtreeAt] at hs
    | node v c l r =>
      have hq : ¬(qs ++ ds = []) := by
        intro hcon
        exact hds (List.append_eq_nil.mp hcon).2
      cases d with
      | LEFT =>
        simp only [subtreeAt] at hs
        simp only [List.cons_append, nrrE, Bool.and_eq_true] at h
        obtain ⟨⟨h1, h2⟩, h3⟩ := h
        simp only [List.cons_append, replaceAt, nrrE, Bool.and_eq_true]
        refine ⟨⟨ih hs h1, h2⟩, ?_⟩
        by_cases hc : c = NodeColor.RED
        · rw [if_pos hc] at h3 ⊢
          rw [Bool.and_eq_true] at h3 ⊢
          obtain ⟨h31, h32⟩ := h3
          refine ⟨h31, ?_⟩
          rw [Bool.or_eq_true, decide_eq_true_eq] at h32 ⊢
          rcases h32 with h32 | h32
          · exact absurd h32 hq
          · cases qs with
            | nil =>
              have hlg : l = g := by simpa [subtreeAt] using hs
              subst hlg
              rcases hside with hside | hside
              · left; simpa using hside
              · right; simpa [replaceAt] using hside h32
            | cons d' qs' =>
              right
              rw [rootBlack_replaceAt]
              exact h32
        · rw [if_neg hc]
      | RIGHT =>
        simp only [subtreeAt] at hs
        simp only [List.cons_append, nrrE, Bool.and_eq_true] at h
        obtain ⟨⟨h1, h2⟩, h3⟩ := h
        simp only [List.cons_append, replaceAt, nrrE, Bool.and_eq_true]
        refine ⟨⟨ih hs h1, h2⟩, ?_⟩
        by_cases hc : c = NodeColor.RED
        · rw [if_pos hc] at h3 ⊢
          rw [Bool.and_eq_true] at h3 ⊢
          obtain ⟨h31, h32⟩ := h3
          refine ⟨h31, ?_⟩
          rw [Bool.or_eq_true, decide_eq_true_eq] at h32 ⊢
          rcases h32 with h32 | h32
          · exact absurd h32 hq
          · cases qs with
            | nil =>
              have hlg : r = g := by simpa [subtreeAt] using hs
              subst hlg
              rcases hside with hside | hside
              · left; simpa using hside
              · right; simpa [replaceAt] using hside h32
            | cons d' qs' =>
              right
              rw [rootBlack_replaceAt]
              exact h32
        · rw [if_neg hc]

theorem nrrE_attach {t g s : RBNode α} {q : List Direction}
    (hn : noRedRed t = true) (hs : subtreeAt t q = some g)
    (hset : noRedRed s = true) :
    nrrE (replaceAt t q s) q = true := by
  induction q generalizing t with
  | nil => simpa [replaceAt, nrrE_nil_path] using hset
  | cons d qs ih =>
    cases t with
    | nil => simp [subtreeAt] at hs
    | node v c l r =>
      cases d with
      | LEFT =>
        simp only [subtreeAt] at hs
        simp only [noRedRed, Bool.and_eq_true] at hn
        obtain ⟨⟨hn1, hn2⟩, hn3⟩ := hn
        simp only [replaceAt, nrrE, Bool.and_eq_true]
        refine ⟨⟨ih hn2 hs, hn3⟩, ?_⟩
        by_cases hc : c = NodeColor.RED
        · rw [if_pos hc]
          rw [if_pos hc, Bool.and_eq_true] at hn1
          rw [Bool.and_eq_true, Bool.or_eq_true, decide_eq_true_eq]
          refine ⟨hn1.2, ?_⟩
          cases qs with
          | nil => left; rfl
          | cons d' qs' => right; rw [rootBlack_replaceAt]; exact hn1.1
        · rw [if_neg hc]
      | RIGHT =>
        simp only [subtreeAt] at hs
        simp only [noRedRed, Bool.and_eq_true] at hn
        obtain ⟨⟨hn1, hn2⟩, hn3⟩ := hn
        simp only [replaceAt, nrrE, Bool.and_eq_true]
        refine ⟨⟨ih hn3 hs, hn2⟩, ?_⟩
        by_cases hc : c = NodeColor.RED
        · rw [if_pos hc]
          rw [if_pos hc, Bool.and_eq_true] at hn1
          rw [Bool.and_eq_true, Bool.or_eq_true, decide_eq_true_eq]
          refine ⟨hn1.1, ?_⟩
          cases qs with
          | nil => left; rfl
          | cons d' qs' => right; rw [rootBlack_replaceAt]; exact hn1.2
        · rw [if_neg hc]

theorem nrrE_discharge {t l r : RBNode α} {x : α} {q : List Direction}
    {d : Direction} (h : nrrE t (q ++ [d]) = true)
    (hs : subtreeAt t q = some (RBNode.node x NodeColor.BLACK l r)) :
    noRedRed t = true := by
  induction q generalizing t with
  | nil =>
    have hg : t = RBNode.node x NodeColor.BLACK l r := by
      simpa [subtreeAt] using hs
    subst hg
    cases d <;>
      simp only [List.nil_append, nrrE, Bool.and_eq_true] at h <;>
      simp only [noRedRed_node_black]
    · exact ⟨h.1.1, h.1.2⟩
    · exact ⟨h.1.2, h.1.1⟩
  | cons d' qs ih =>
    cases t with
    | nil => simp [subtreeAt] at hs
    | node v c ll rr =>
      have hq : ¬(qs ++ [d] = []) := by simp
      cases d' with
      | LEFT =>
        simp only [subtreeAt] at hs
        simp only [List.cons_append, nrrE, Bool.and_eq_true] at h
        obtain ⟨⟨h1, h2⟩, h3⟩ := h
        simp only [noRedRed, Bool.and_eq_true]
        refine ⟨⟨?_, ih h1 hs⟩, h2⟩
        by_cases hc : c = NodeColor.RED
        · rw [if_pos hc] at h3 ⊢
          rw [Bool.and_eq_true] at h3
          rw [Bool.and_eq_true]
          obtain ⟨h31, h32⟩ := h3
          rw [Bool.or_eq_true, decide_eq_true_eq] at h32
          rcases h32 with h32 | h32
          · exact absurd h32 hq
          · exact ⟨h32, h31⟩
        · rw [if_neg hc]
      | RIGHT =>
        simp only [subtreeAt] at hs
        simp only [List.cons_append, nrrE, Bool.and_eq_true] at h
        obtain ⟨⟨h1, h2⟩, h3⟩ := h
        simp only [noRedRed, Bool.and_eq_true]
        refine ⟨⟨?_, h2⟩, ih h1 hs⟩
        by_cases hc : c = NodeColor.RED
        · rw [if_pos hc] at h3 ⊢
          rw [Bool.and_eq_true] at h3
          rw [Bool.and_eq_true]
          obtain ⟨h31, h32⟩ := h3
          rw [Bool.or_eq_true, decide_eq_true_eq] at h32
          rcases h32 with h32 | h32
          · exact absurd h32 hq
          · exact ⟨h31, h32⟩
        · rw [if_neg hc]

end NrrLemmas

end RBT

namespace RBT

open RBNode

section OrderLemmas

variable {α : Type}

theorem allB_iff {p : α → Bool} {t : RBNode α} :
    allB p t = true ↔ ∀ x ∈ inorder t, p x = true := by
  induction t with
  | nil => simp [allB, inorder]
  | node v c l r ihl ihr =>
    simp only [allB, inorder, Bool.and_eq_true, ihl, ihr, List.mem_append,
      List.mem_cons]
    constructor
    · rintro ⟨⟨hv, hl⟩, hr⟩ x (hx | hx | hx)
      · exact hl x hx
      · exact hx ▸ hv
      · exact hr x hx
    · intro h
      exact ⟨⟨h v (Or.inr (Or.inl rfl)), fun x hx => h x (Or.inl hx)⟩,
        fun x hx => h x (Or.inr (Or.inr hx))⟩

theorem allB_mono {p q : α → Bool} {t : RBNode α}
    (h : allB p t = true) (hpq : ∀ x, p x = true → q x = true) :
    allB q t = true := by
  rw [allB_iff] at h ⊢
  exact fun x hx => hpq x (h x hx)

theorem tw_append_neg {p : α → Bool} {x : α} (hx : p x = false)
    (A B : List α) : (A ++ x :: B).takeWhile p = A.takeWhile p := by
  induction A with
  | nil => simp [List.takeWhile, hx]
  | cons a A ih =>
    simp only [List.cons_append, List.takeWhile]
    cases p a <;> simp [ih]

theorem dw_append_neg {p : α → Bool} {x : α} (hx : p x = false)
    (A B : List α) : (A ++ x :: B).dropWhile p = A.dropWhile p ++ x :: B := by
  induction A with
  | nil => simp [List.dropWhile, hx]
  | cons a A ih =>
    simp only [List.cons_append, List.dropWhile]
    cases p a <;> simp [ih]

theorem tw_append_all {p : α → Bool} {A : List α}
    (hA : ∀ a ∈ A, p a = true) (B : List α) :
    (A ++ B).takeWhile p = A ++ B.takeWhile p := by
  induction A with
  | nil => simp
  | cons a A ih =>
    have ha : p a = true := hA a (List.mem_cons_self a A)
    simp only [List.cons_append, List.takeWhile, ha]
    simp [ih fun x hx => hA x (List.mem_cons_of_mem a hx)]

theorem dw_append_all {p : α → Bool} {A : List α}
    (hA : ∀ a ∈ A, p a = true) (B : List α) :
    (A ++ B).dropWhile p = B.dropWhile p := by
  induction A with
  | nil => simp
  | cons a A ih =>
    have ha : p a = true := hA a (List.mem_cons_self a A)
    simp only [List.cons_append, List.dropWhile, ha]
    exact ih fun x hx => hA x (List.mem_cons_of_mem a hx)

theorem subtreeAt_findSlot [LinearOrder α] (v : α) (t : RBNode α) :
    subtreeAt t (findSlot v t) = some RBNode.nil := by
  induction t with
  | nil => simp [findSlot, subtreeAt]
  | node x c l r ihl ihr =>
    by_cases h : v < x <;> simp [findSlot, h, subtreeAt, ihl, ihr]

theorem inorder_attach [LinearOrder α] {t : RBNode α} (hw : wbst t = true)
    (v : α) (cl : NodeColor) :
    inorder (replaceAt t (findSlot v t) (RBNode.node v cl RBNode.nil RBNode.nil)) =
      (inorder t).takeWhile (fun y => decide (y ≤ v)) ++
        v :: (inorder t).dropWhile (fun y => decide (y ≤ v)) := by
  induction t with
  | nil => simp [findSlot, replaceAt, inorder]
  | node x c l r ihl ihr =>
    simp only [wbst, Bool.and_eq_true] at hw
    obtain ⟨⟨⟨hal, har⟩, hwl⟩, hwr⟩ := hw
    by_cases h : v < x
    · have hx : (fun y => decide (y ≤ v)) x = false := by
        simp only [decide_eq_false_iff_not]
        exact not_le.mpr h
      simp only [findSlot, if_pos h, replaceAt, inorder, ihl hwl]
      rw [tw_append_neg (p := fun y => decide (y ≤ v)) hx,
        dw_append_neg (p := fun y => decide (y ≤ v)) hx]
      simp
    · have hx : (fun y => decide (y ≤ v)) x = true := by
        simp only [decide_eq_true_eq]
        exact le_of_not_lt h
      have hall : ∀ a ∈ inorder l ++ [x], (fun y => decide (y ≤ v)) a = true := by
        intro a ha
        rcases List.mem_append.mp ha with ha | ha
        · have := allB_iff.mp hal a ha
          simp only [decide_eq_true_eq] at this ⊢
          exact le_trans this (le_of_not_lt h)
        · simp only [List.mem_singleton] at ha
          exact ha ▸ hx
      have hsplit : inorder l ++ x :: inorder r = (inorder l ++ [x]) ++ inorder r := by
        simp
      simp only [findSlot, if_neg h, replaceAt, inorder, ihr hwr, hsplit]
      rw [tw_append_all (p := fun y => decide (y ≤ v)) hall,
        dw_append_all (p := fun y => decide (y ≤ v)) hall]
      simp

theorem sorted_inorder [LinearOrder α] {t : RBNode α} (hw : wbst t = true) :
    (inorder t).Sorted (· ≤ ·) := by
  induction t with
  | nil => simp [inorder]
  | node x c l r ihl ihr =>
    simp only [wbst, Bool.and_eq_true] at hw
    obtain ⟨⟨⟨hal, har⟩, hwl⟩, hwr⟩ := hw
    simp only [inorder]
    refine List.pairwise_append.mpr ⟨ihl hwl, List.pairwise_cons.mpr ⟨?_, ihr hwr⟩, ?_⟩
    · intro b hb
      have := allB_iff.mp har b hb
      simpa using this
    · intro a ha b hb
      have hax : a ≤ x := by
        have := allB_iff.mp hal a ha
        simpa using this
      rcases List.mem_cons.mp hb with hb | hb
      · exact hb ▸ hax
      · have hxb : x ≤ b := by
          have := allB_iff.mp har b hb
          simpa using this
        exact le_trans hax hxb

theorem contains_iff_mem [LinearOrder α] {t : RBNode α} (hw : wbst t = true)
    (v : α) : contains t v = true ↔ v ∈ inorder t := by
  induction t with
  | nil => simp [contains, inorder]
  | node x c l r ihl ihr =>
    simp only [wbst, Bool.and_eq_true] at hw
    obtain ⟨⟨⟨hal, har⟩, hwl⟩, hwr⟩ := hw
    by_cases hvx : v = x
    · subst hvx
      simp [contains, inorder]
    · by_cases hlt : v < x
      · have hnr : v ∉ inorder r := by
          intro hmem
          have := allB_iff.mp har v hmem
          simp only [decide_eq_true_eq] at this
          exact absurd this (not_le.mpr hlt)
        simp only [contains, if_neg hvx, if_pos hlt, ihl hwl, inorder,
          List.mem_append, List.mem_cons]
        constructor
        · exact fun h => Or.inl h
        · rintro (h | h | h)
          · exact h
          · exact absurd h hvx
          · exact absurd h hnr
      · have hnl : v ∉ inorder l := by
          intro hmem
          have := allB_iff.mp hal v hmem
          simp only [decide_eq_true_eq] at this
          have : v < x := lt_of_le_of_ne this hvx
          exact absurd this hlt
        simp only [contains, if_neg hvx, if_neg hlt, ihr hwr, inorder,
          List.mem_append, List.mem_cons]
        constructor
        · exact fun h => Or.inr (Or.inr h)
        · rintro (h | h | h)
          · exact absurd h hnl
          · exact absurd h hvx
          · exact h

theorem allB_attach [LinearOrder α] {p : α → Bool} {t : RBNode α} {v : α}
    (h : allB p t = true) (hv : p v = true) (cl : NodeColor) :
    allB p (replaceAt t (findSlot v t) (RBNode.node v cl RBNode.nil RBNode.nil)) = true := by
  induction t with
  | nil => simp [findSlot, replaceAt, allB, hv]
  | node x c l r ihl ihr =>
    simp only [allB, Bool.and_eq_true] at h
    obtain ⟨⟨hx, hl⟩, hr⟩ := h
    by_cases hlt : v < x <;>
      simp only [findSlot, hlt, if_pos, if_neg, if_true, if_false, replaceAt,
        allB, Bool.and_eq_true] <;>
      simp_all [ihl, ihr]

theorem wbst_attach [LinearOrder α] {t : RBNode α} (hw : wbst t = true)
    (v : α) (cl : NodeColor) :
    wbst (replaceAt t (findSlot v t) (RBNode.node v cl RBNode.nil RBNode.nil)) = true := by
  induction t with
  | nil => simp [findSlot, replaceAt, wbst, allB]
  | node x c l r ihl ihr =>
    simp only [wbst, Bool.and_eq_true] at hw
    obtain ⟨⟨⟨hal, har⟩, hwl⟩, hwr⟩ := hw
    by_cases hlt : v < x
    · have hv : (fun y => decide (y ≤ x)) v = true := by
        simp [le_of_lt hlt]
      simp only [findSlot, if_pos hlt, replaceAt, wbst, Bool.and_eq_true]
      exact ⟨⟨⟨allB_attach hal hv cl, har⟩, ihl hwl⟩, hwr⟩
    · have hv : (fun y => decide (x ≤ y)) v = true := by
        simp [le_of_not_lt hlt]
      simp only [findSlot, if_neg hlt, replaceAt, wbst, Bool.and_eq_true]
      exact ⟨⟨⟨hal, allB_attach har hv cl⟩, hwl⟩, ihr hwr⟩

theorem size_eq_length_inorder (t : RBNode α) :
    size t = (inorder t).length := by
  induction t with
  | nil => simp [size, inorder]
  | node v c l r ihl ihr => simp [size, inorder, ihl, ihr]; omega

end OrderLemmas

end RBT

namespace RBT

open RBNode

section HeightLemmas

variable {α : Type}

theorem bpbalance_node_iff {v : α} {c : NodeColor} {l r : RBNode α} {h : Nat} :
    bpbalance (RBNode.node v c l r) = some h ↔
      ∃ hb, bpbalance l = some hb ∧ bpbalance r = some hb ∧
        h = hb + (if c = NodeColor.BLACK then 1 else 0) := by
  rw [show bpbalance (RBNode.node v c l r) =
      (match bpbalance l with
       | none => none
       | some bl =>
         match bpbalance r with
         | none => none
         | some br =>
           if bl ≠ br then none
           else some (bl + (if c = NodeColor.BLACK then 1 else 0))) from rfl]
  cases hbl : bpbalance l with
  | none => simp
  | some bl =>
    cases hbr : bpbalance r with
    | none => simp
    | some br =>
      by_cases hbb : bl = br
      · subst hbb
        simp only [ne_eq, not_true_eq_false, if_false, Option.some.injEq]
        constructor
        · intro hh; exact ⟨bl, rfl, rfl, hh.symm⟩
        · rintro ⟨hb, hb1, hb2, hb3⟩
          cases hb1; exact hb3.symm
      · simp only [ne_eq, hbb, not_false_eq_true, if_true]
        constructor
        · intro hcon; exact absurd hcon (by simp)
        · rintro ⟨hb, hb1, hb2, hb3⟩
          cases hb1; cases hb2; exact absurd rfl hbb

theorem bpbalance_pos {t : RBNode α} {h : Nat} (hb : bpbalance t = some h) :
    1 ≤ h := by
  induction t generalizing h with
  | nil => simp [bpbalance] at hb; omega
  | node v c l r ihl ihr =>
    rw [bpbalance_node_iff] at hb
    obtain ⟨k, hk, _, hh⟩ := hb
    have := ihl hk
    omega

theorem depth_bound {t : RBNode α} {h : Nat} (hn : noRedRed t = true)
    (hb : bpbalance t = some h) :
    depth t + 1 ≤ 2 * h ∧ (rootBlack t = true → depth t + 2 ≤ 2 * h) := by
  induction t generalizing h with
  | nil =>
    simp [bpbalance] at hb
    simp [depth]
    omega
  | node v c l r ihl ihr =>
    rw [bpbalance_node_iff] at hb
    obtain ⟨k, hkl, hkr, hh⟩ := hb
    have hdep : depth (RBNode.node v c l r) = max (depth l) (depth r) + 1 := by
      simp [depth]
    cases c with
    | RED =>
      rw [noRedRed_node_red] at hn
      obtain ⟨hbl, hbr, hnl, hnr⟩ := hn
      have dl := (ihl hnl hkl).2 hbl
      have dr := (ihr hnr hkr).2 hbr
      have hh' : h = k := by simpa using hh
      subst hh'
      constructor
      · rcases Nat.le_total (depth l) (depth r) with hmr | hmr
        · rw [hdep, Nat.max_eq_right hmr]; omega
        · rw [hdep, Nat.max_eq_left hmr]; omega
      · intro hcon
        simp [rootBlack] at hcon
    | BLACK =>
      rw [noRedRed_node_black] at hn
      have dl := (ihl hn.1 hkl).1
      have dr := (ihr hn.2 hkr).1
      have hh' : h = k + 1 := by simpa using hh
      subst hh'
      rcases Nat.le_total (depth l) (depth r) with hmr | hmr
      · rw [hdep, Nat.max_eq_right hmr]
        constructor
        · omega
        · intro _; omega
      · rw [hdep, Nat.max_eq_left hmr]
        constructor
        · omega
        · intro _; omega

theorem size_bound {t : RBNode α} {h : Nat} (hb : bpbalance t = some h) :
    2 ^ h ≤ 2 * size t + 2 := by
  induction t generalizing h with
  | nil =>
    simp [bpbalance] at hb
    simp [size, ← hb]
  | node v c l r ihl ihr =>
    rw [bpbalance_node_iff] at hb
    obtain ⟨k, hkl, hkr, hh⟩ := hb
    have sl := ihl hkl
    have sr := ihr hkr
    cases c with
    | RED =>
      have hh' : h = k := by simpa using hh
      subst hh'
      simp only [size]
      omega
    | BLACK =>
      have hh' : h = k + 1 := by simpa using hh
      subst hh'
      have hp : (2 : Nat) ^ (k + 1) = 2 ^ k + 2 ^ k := by
        rw [pow_succ]; omega
      simp only [size]
      omega

theorem depth_le_log {t : RBNode α} (hr : rootBlack t = true)
    (hn : noRedRed t = true) (hb : (bpbalance t).isSome) :
    depth t ≤ 2 * Nat.log 2 (size t + 1) := by
  obtain ⟨h, hh⟩ := Option.isSome_iff_exists.mp hb
  have h1 := bpbalance_pos hh
  have hd := (depth_bound hn hh).2 hr
  have hs := size_bound hh
  obtain ⟨k, rfl⟩ : ∃ k, h = k + 1 := ⟨h - 1, by omega⟩
  have hpow : 2 ^ k ≤ size t + 1 := by
    have : (2 : Nat) ^ (k + 1) = 2 ^ k + 2 ^ k := by rw [pow_succ]; omega
    omega
  have hlog : k ≤ Nat.log 2 (size t + 1) :=
    (Nat.pow_le_iff_le_log Nat.one_lt_two (by omega)).mp hpow
  omega

theorem any_redWithRedChild_eq {t : RBNode α} :
    (nodesList t).any redWithRedChild = !noRedRed t := by
  induction t with
  | nil => simp [nodesList, noRedRed]
  | node v c l r ihl ihr =>
    simp only [nodesList, List.any_append, List.any_cons, ihl, ihr]
    cases c with
    | RED =>
      have : redWithRedChild (RBNode.node v NodeColor.RED l r) =
          (!rootBlack l || !rootBlack r) := by
        simp [redWithRedChild, rootBlack_eq_not_isRedNode]
      rw [this]
      simp only [noRedRed, if_pos rfl]
      cases rootBlack l <;> cases rootBlack r <;>
        cases noRedRed l <;> cases noRedRed r <;> rfl
    | BLACK =>
      have : redWithRedChild (RBNode.node v NodeColor.BLACK l r) = false := by
        simp [redWithRedChild]
      rw [this]
      simp only [noRedRed, if_neg (by simp : ¬(NodeColor.BLACK = NodeColor.RED))]
      cases noRedRed l <;> cases noRedRed r <;> rfl

theorem invariant_iff {t : RBNode α} :
    invariant t = true ↔
      (rootBlack t = true ∧ noRedRed t = true ∧ (bpbalance t).isSome = true) := by
  cases t with
  | nil => simp [invariant, rootBlack, noRedRed, bpbalance]
  | node v c l r =>
    cases c with
    | RED => simp [invariant, rootBlack]
    | BLACK =>
      simp only [invariant, if_neg (by simp : ¬(NodeColor.BLACK = NodeColor.RED)),
        rootBlack, decide_eq_true_eq, any_redWithRedChild_eq]
      cases hn : noRedRed (RBNode.node v NodeColor.BLACK l r) <;> simp

end HeightLemmas

end RBT

namespace RBT

open RBNode

section WalkerLemmas

variable {α : Type}

theorem current_mk (t : RBNode α) (p : List Direction) (ld : Direction) :
    NodeWalker.current ⟨t, p, ld⟩ = subtreeAt t p := rfl

theorem up_concat (t : RBNode α) (q : List Direction) (d ld : Direction) :
    NodeWalker.up ⟨t, q ++ [d], ld⟩ = some ⟨t, q, ld⟩ := by
  have h1 : (q ++ [d] : List Direction) ≠ [] := by simp
  have h2 : (q ++ [d]).dropLast = q := List.dropLast_concat
  simp [NodeWalker.up, h1, h2]

theorem subtreeAt_concat_left {t : RBNode α} {q : List Direction}
    {v : α} {c : NodeColor} {l r : RBNode α}
    (h : subtreeAt t q = some (RBNode.node v c l r)) :
    subtreeAt t (q ++ [Direction.LEFT]) = some l := by
  rw [subtreeAt_append, h]
  simp [subtreeAt]

theorem subtreeAt_concat_right {t : RBNode α} {q : List Direction}
    {v : α} {c : NodeColor} {l r : RBNode α}
    (h : subtreeAt t q = some (RBNode.node v c l r)) :
    subtreeAt t (q ++ [Direction.RIGHT]) = some r := by
  rw [subtreeAt_append, h]
  simp [subtreeAt]

theorem left_eval {t : RBNode α} {q : List Direction} {ld : Direction}
    {v : α} {c : NodeColor} {l r : RBNode α}
    (h : subtreeAt t q = some (RBNode.node v c l r)) :
    NodeWalker.left ⟨t, q, ld⟩ =
      some ⟨t, q ++ [Direction.LEFT],
        match l with | RBNode.nil => Direction.LEFT | _ => ld⟩ := by
  simp only [NodeWalker.left, h]
  cases l <;> rfl

theorem right_eval {t : RBNode α} {q : List Direction} {ld : Direction}
    {v : α} {c : NodeColor} {l r : RBNode α}
    (h : subtreeAt t q = some (RBNode.node v c l r)) :
    NodeWalker.right ⟨t, q, ld⟩ =
      some ⟨t, q ++ [Direction.RIGHT],
        match r with | RBNode.nil => Direction.RIGHT | _ => ld⟩ := by
  simp only [NodeWalker.right, h]
  cases r <;> rfl

theorem update_mk (t : RBNode α) (p : List Direction) (ld : Direction)
    (s : RBNode α) :
    NodeWalker.update ⟨t, p, ld⟩ s = ⟨replaceAt t p s, p, ld⟩ := rfl

theorem leftRotate_eval {t : RBNode α} {q : List Direction} {ld : Direction}
    {xv yv : α} {xc yc : NodeColor} {xl yl yr : RBNode α}
    (h : subtreeAt t q = some (RBNode.node xv xc xl (RBNode.node yv yc yl yr))) :
    leftRotate ⟨t, q, ld⟩ =
      some ⟨replaceAt t q (RBNode.node yv yc (RBNode.node xv xc xl yl) yr),
        q ++ [Direction.LEFT], ld⟩ := by
  have hcur : NodeWalker.current ⟨t, q, ld⟩ =
      some (RBNode.node xv xc xl (RBNode.node yv yc yl yr)) := h
  unfold leftRotate
  rw [hcur]
  exact left_eval (subtreeAt_replaceAt_self h _)

theorem rightRotate_eval {t : RBNode α} {q : List Direction} {ld : Direction}
    {xv yv : α} {xc yc : NodeColor} {xl xr yr : RBNode α}
    (h : subtreeAt t q = some (RBNode.node yv yc (RBNode.node xv xc xl xr) yr)) :
    rightRotate ⟨t, q, ld⟩ =
      some ⟨replaceAt t q (RBNode.node xv xc xl (RBNode.node yv yc xr yr)),
        q ++ [Direction.RIGHT], ld⟩ := by
  have hcur : NodeWalker.current ⟨t, q, ld⟩ =
      some (RBNode.node yv yc (RBNode.node xv xc xl xr) yr) := h
  unfold rightRotate
  rw [hcur]
  exact right_eval (subtreeAt_replaceAt_self h _)

theorem fixBody_eq [DecidableEq α] {t c : RBNode α} {q : List Direction}
    {d1 d2 ld : Direction} {gv : α} {gc : NodeColor} {gl gr : RBNode α}
    (hc : subtreeAt t (q ++ [d1, d2]) = some c)
    (hg : subtreeAt t q = some (RBNode.node gv gc gl gr)) :
    fixBody ⟨t, q ++ [d1, d2], ld⟩ = fixArm ⟨t, q, ld⟩ c d1 d2 gv gl gr := by
  have hsplit : (q ++ [d1, d2] : List Direction) = (q ++ [d1]) ++ [d2] := by simp
  have hcur : NodeWalker.current ⟨t, q ++ [d1, d2], ld⟩ = some c := hc
  have hup1 : NodeWalker.up ⟨t, q ++ [d1, d2], ld⟩ = some ⟨t, q ++ [d1], ld⟩ := by
    rw [show (⟨t, q ++ [d1, d2], ld⟩ : NodeWalker α) = ⟨t, (q ++ [d1]) ++ [d2], ld⟩ by
      rw [hsplit]]
    exact up_concat t (q ++ [d1]) d2 ld
  have hup2 : NodeWalker.up ⟨t, q ++ [d1], ld⟩ = some ⟨t, q, ld⟩ :=
    up_concat t q d1 ld
  have hcur2 : NodeWalker.current ⟨t, q, ld⟩ = some (RBNode.node gv gc gl gr) := hg
  have hd1 : ((q ++ [d1] : List Direction)).getLastD Direction.LEFT = d1 :=
    List.getLastD_concat _ _ _
  have hd2 : ((q ++ [d1, d2] : List Direction)).getLastD Direction.LEFT = d2 := by
    rw [hsplit]
    exact List.getLastD_concat _ _ _
  simp only [fixBody, hcur, hup1, hup2, hcur2, hd1, hd2]

theorem fixCond_eval {t : RBNode α} {p : List Direction} {d ld : Direction}
    {x : α} {col : NodeColor} {l r : RBNode α}
    (h : subtreeAt t p = some (RBNode.node x col l r)) :
    fixCond ⟨t, p ++ [d], ld⟩ = decide (col = NodeColor.RED) := by
  have h1 : (p ++ [d] : List Direction) ≠ [] := by simp
  have h2 : (p ++ [d]).dropLast = p := List.dropLast_concat
  simp only [fixCond, NodeWalker.isRoot, NodeWalker.parent, h1, if_neg h1, h2, h,
    decide_eq_true_eq]
  simp only [Option.bind_some, rootColorOpt]
  cases col <;> simp

theorem fixCond_nil (t : RBNode α) (ld : Direction) :
    fixCond ⟨t, [], ld⟩ = false := by
  simp [fixCond, NodeWalker.isRoot]

theorem dirs_decomp {p : List Direction} (h : 2 ≤ p.length) :
    ∃ q d1 d2, p = q ++ [d1, d2] := by
  rcases hr : p.reverse with _ | ⟨d2, pr⟩
  · have : p = [] := by
      have := congrArg List.reverse hr
      simpa using this
    subst this; simp at h
  · rcases pr with _ | ⟨d1, qr⟩
    · have : p = [d2] := by
        have := congrArg List.reverse hr
        simpa using this
      subst this; simp at h
    · refine ⟨qr.reverse, d1, d2, ?_⟩
      have := congrArg List.reverse hr
      simpa using this

end WalkerLemmas

end RBT

namespace RBT

open RBNode

section WbstLemmas

variable {α : Type}

theorem wbst_subtreeAt [LinearOrder α] {t g : RBNode α} {q : List Direction}
    (hw : wbst t = true) (hg : subtreeAt t q = some g) : wbst g = true := by
  induction q generalizing t with
  | nil => simp [subtreeAt] at hg; subst hg; exact hw
  | cons d qs ih =>
    cases t with
    | nil => simp [subtreeAt] at hg
    | node v c l r =>
      simp only [wbst, Bool.and_eq_true] at hw
      cases d <;> simp only [subtreeAt] at hg
      · exact ih hw.1.2 hg
      · exact ih hw.2 hg

theorem wbst_replaceAt [LinearOrder α] {t g s : RBNode α} {q : List Direction}
    (hw : wbst t = true) (hg : subtreeAt t q = some g)
    (hws : wbst s = true) (hio : inorder s = inorder g) :
    wbst (replaceAt t q s) = true := by
  induction q generalizing t with
  | nil => simp [subtreeAt] at hg; subst hg; simpa [replaceAt] using hws
  | cons d qs ih =>
    cases t with
    | nil => simp [subtreeAt] at hg
    | node v c l r =>
      simp only [wbst, Bool.and_eq_true] at hw
      obtain ⟨⟨⟨hal, har⟩, hwl⟩, hwr⟩ := hw
      cases d <;> simp only [subtreeAt] at hg <;>
        simp only [replaceAt, wbst, Bool.and_eq_true]
      · refine ⟨⟨⟨?_, har⟩, ih hwl hg⟩, hwr⟩
        rw [allB_iff]
        rw [inorder_replaceAt hg hio]
        exact allB_iff.mp hal
      · refine ⟨⟨⟨hal, ?_⟩, hwl⟩, ih hwr hg⟩
        rw [allB_iff]
        rw [inorder_replaceAt hg hio]
        exact allB_iff.mp har

theorem allB_node_iff {p : α → Bool} {v : α} {c : NodeColor} {l r : RBNode α} :
    allB p (RBNode.node v c l r) = true ↔
      p v = true ∧ allB p l = true ∧ allB p r = true := by
  simp [allB, and_assoc]

theorem wbst_node_iff [LinearOrder α] {v : α} {c : NodeColor} {l r : RBNode α} :
    wbst (RBNode.node v c l r) = true ↔
      allB (fun y => decide (y ≤ v)) l = true ∧
        allB (fun y => decide (v ≤ y)) r = true ∧
        wbst l = true ∧ wbst r = true := by
  simp [wbst, and_assoc]

theorem allB_le_trans [LinearOrder α] {a b : α} {s : RBNode α}
    (h : allB (fun y => decide (y ≤ a)) s = true) (hab : a ≤ b) :
    allB (fun y => decide (y ≤ b)) s = true := by
  refine allB_mono h ?_
  intro x hx
  simp only [decide_eq_true_eq] at hx ⊢
  exact le_trans hx hab

theorem allB_ge_trans [LinearOrder α] {a b : α} {s : RBNode α}
    (h : allB (fun y => decide (a ≤ y)) s = true) (hab : b ≤ a) :
    allB (fun y => decide (b ≤ y)) s = true := by
  refine allB_mono h ?_
  intro x hx
  simp only [decide_eq_true_eq] at hx ⊢
  exact le_trans hab hx

end WbstLemmas

section DispatchLemmas

variable {α : Type}

theorem dispatchOf_eq [DecidableEq α] {t c : RBNode α} {q : List Direction}
    {d1 d2 ld : Direction} {gv : α} {gc : NodeColor} {gl gr : RBNode α}
    (hc : subtreeAt t (q ++ [d1, d2]) = some c)
    (hg : subtreeAt t q = some (RBNode.node gv gc gl gr)) :
    dispatchOf ⟨t, q ++ [d1, d2], ld⟩ = some (dispatch c d1 d2 gl gr) := by
  have hsplit : (q ++ [d1, d2] : List Direction) = (q ++ [d1]) ++ [d2] := by simp
  have hcur : NodeWalker.current ⟨t, q ++ [d1, d2], ld⟩ = some c := hc
  have hup1 : NodeWalker.up ⟨t, q ++ [d1, d2], ld⟩ = some ⟨t, q ++ [d1], ld⟩ := by
    rw [show (⟨t, q ++ [d1, d2], ld⟩ : NodeWalker α) = ⟨t, (q ++ [d1]) ++ [d2], ld⟩ by
      rw [hsplit]]
    exact up_concat t (q ++ [d1]) d2 ld
  have hup2 : NodeWalker.up ⟨t, q ++ [d1], ld⟩ = some ⟨t, q, ld⟩ :=
    up_concat t q d1 ld
  have hcur2 : NodeWalker.current ⟨t, q, ld⟩ = some (RBNode.node gv gc gl gr) := hg
  have hd1 : ((q ++ [d1] : List Direction)).getLastD Direction.LEFT = d1 :=
    List.getLastD_concat _ _ _
  have hd2 : ((q ++ [d1, d2] : List Direction)).getLastD Direction.LEFT = d2 := by
    rw [hsplit]
    exact List.getLastD_concat _ _ _
  simp only [dispatchOf, hcur, hup1, hup2, hcur2, hd1, hd2]

theorem isRedNode_of_blackOrNil {t : RBNode α} (h : blackOrNil t = true) :
    isRedNode t = false := by
  cases t with
  | nil => rfl
  | node v c l r => cases c with
    | RED => simp [blackOrNil] at h
    | BLACK => rfl

end DispatchLemmas

end RBT

namespace RBT

open RBNode

section StepLemmas

variable {α : Type}

theorem FixInv_intro [LinearOrder α] {w : NodeWalker α}
    (h1 : ∃ cv cl cr, w.current = some (RBNode.node cv NodeColor.RED cl cr))
    (h2 : nrrE w.tree w.dirs = true) (h3 : (bpbalance w.tree).isSome)
    (h4 : w.dirs ≠ [] → rootBlack w.tree = true) (h5 : wbst w.tree = true) :
    FixInv w := by
  unfold FixInv
  exact ⟨h1, h2, h3, h4, h5⟩

theorem step_case1 [LinearOrder α] {t : RBNode α} {q : List Direction}
    {d2 : Direction} (ld : Direction) {gv pv uv : α} {gc : NodeColor}
    {pl pr ul ur : RBNode α}
    (hg : subtreeAt t q = some (RBNode.node gv gc
      (RBNode.node pv NodeColor.RED pl pr) (RBNode.node uv NodeColor.RED ul ur)))
    (hnrr : nrrE t (q ++ [Direction.LEFT, d2]) = true)
    (hbp : (bpbalance t).isSome)
    (hrb : rootBlack t = true)
    (hw : wbst t = true)
    (hcs : ∃ cv ccl ccr, subtreeAt t (q ++ [Direction.LEFT, d2]) =
      some (RBNode.node cv NodeColor.RED ccl ccr)) :
    fixBody ⟨t, q ++ [Direction.LEFT, d2], ld⟩ =
      some ⟨replaceAt t q (RBNode.node gv NodeColor.RED
        (RBNode.node pv NodeColor.BLACK pl pr)
        (RBNode.node uv NodeColor.BLACK ul ur)), q, ld⟩ ∧
    FixInv (⟨replaceAt t q (RBNode.node gv NodeColor.RED
        (RBNode.node pv NodeColor.BLACK pl pr)
        (RBNode.node uv NodeColor.BLACK ul ur)), q, ld⟩ : NodeWalker α) ∧
    inorder (replaceAt t q (RBNode.node gv NodeColor.RED
        (RBNode.node pv NodeColor.BLACK pl pr)
        (RBNode.node uv NodeColor.BLACK ul ur))) = inorder t ∧
    dispatchOf ⟨t, q ++ [Direction.LEFT, d2], ld⟩ = some FixCase.one := by
  obtain ⟨cv, ccl, ccr, hc⟩ := hcs
  have hnrrg := nrrE_extract hnrr hg
  have hgc : gc = NodeColor.BLACK := by
    cases gc with
    | BLACK => rfl
    | RED =>
      exfalso
      simp [nrrE, rootBlack] at hnrrg
  subst hgc
  set g1 := RBNode.node gv NodeColor.RED
    (RBNode.node pv NodeColor.BLACK pl pr)
    (RBNode.node uv NodeColor.BLACK ul ur) with hg1
  have hkey : noRedRed pl = true ∧ noRedRed pr = true ∧
      rootBlack ul = true ∧ rootBlack ur = true ∧
      noRedRed ul = true ∧ noRedRed ur = true := by
    cases d2 <;>
      simp [nrrE, nrrE_nil_path, noRedRed, rootBlack] at hnrrg <;>
      tauto
  have hbg := bpbalance_subtreeAt hbp hg
  obtain ⟨h, hhg⟩ := Option.isSome_iff_exists.mp hbg
  have hh := hhg
  rw [bpbalance_node_iff] at hh
  obtain ⟨hb, hbl, hbr, hhe⟩ := hh
  rw [bpbalance_node_iff] at hbl hbr
  obtain ⟨k1, hk1l, hk1r, hk1e⟩ := hbl
  obtain ⟨k2, hk2l, hk2r, hk2e⟩ := hbr
  have hk1 : k1 = hb := by simp at hk1e; omega
  have hk2 : k2 = hb := by simp at hk2e; omega
  have hA : bpbalance (RBNode.node pv NodeColor.BLACK pl pr) = some (hb + 1) :=
    bpbalance_node_iff.mpr ⟨hb, hk1 ▸ hk1l, hk1 ▸ hk1r, by simp⟩
  have hB : bpbalance (RBNode.node uv NodeColor.BLACK ul ur) = some (hb + 1) :=
    bpbalance_node_iff.mpr ⟨hb, hk2 ▸ hk2l, hk2 ▸ hk2r, by simp⟩
  have hG1 : bpbalance g1 = some (hb + 1) :=
    bpbalance_node_iff.mpr ⟨hb + 1, hA, hB, by simp⟩
  have hGe : h = hb + 1 := by simp at hhe; omega
  have hbalEq : bpbalance g1 = bpbalance (RBNode.node gv NodeColor.BLACK
      (RBNode.node pv NodeColor.RED pl pr) (RBNode.node uv NodeColor.RED ul ur)) := by
    rw [hG1, hhg, hGe]
  have hbp' : (bpbalance (replaceAt t q g1)).isSome := by
    rw [bpbalance_replaceAt hg hbalEq]; exact hbp
  have hio : inorder g1 = inorder (RBNode.node gv NodeColor.BLACK
      (RBNode.node pv NodeColor.RED pl pr) (RBNode.node uv NodeColor.RED ul ur)) := by
    simp [inorder]
  have hio' : inorder (replaceAt t q g1) = inorder t := inorder_replaceAt hg hio
  have hwg : wbst (RBNode.node gv NodeColor.BLACK
      (RBNode.node pv NodeColor.RED pl pr) (RBNode.node uv NodeColor.RED ul ur)) = true :=
    wbst_subtreeAt hw hg
  have hwg1 : wbst g1 = true := by
    rw [hg1]
    simp only [wbst_node_iff] at hwg ⊢
    exact hwg
  have hwt' : wbst (replaceAt t q g1) = true := wbst_replaceAt hw hg hwg1 hio
  have hnr1 : noRedRed g1 = true := by
    obtain ⟨e1, e2, e3, e4, e5, e6⟩ := hkey
    simp [hg1, noRedRed, rootBlack, e1, e2, e3, e4, e5, e6]
  have hnrr' : nrrE (replaceAt t q g1) q = true := by
    have hrep := nrrE_replace [] hg hnrr (by simp)
      (by rw [nrrE_nil_path]; exact hnr1) (Or.inl rfl)
    simpa using hrep
  have hcur' : subtreeAt (replaceAt t q g1) q = some g1 :=
    subtreeAt_replaceAt_self hg g1
  have hrb' : q ≠ [] → rootBlack (replaceAt t q g1) = true := by
    intro hq
    cases q with
    | nil => exact absurd rfl hq
    | cons d' q' => rw [rootBlack_replaceAt]; exact hrb
  have hdisp : dispatch (RBNode.node cv NodeColor.RED ccl ccr) Direction.LEFT d2
      (RBNode.node pv NodeColor.RED pl pr) (RBNode.node uv NodeColor.RED ul ur) =
      FixCase.one := by
    simp [dispatch, isNilT, isRedNode]
  refine ⟨?_, ?_, hio', ?_⟩
  · rw [fixBody_eq hc hg]
    simp only [fixArm, hdisp]
    rfl
  · exact FixInv_intro ⟨gv, _, _, hcur'⟩ hnrr' hbp' hrb' hwt'
  · rw [dispatchOf_eq hc hg, hdisp]

end StepLemmas

end RBT


namespace RBT

open RBNode

section StepCase3

variable {α : Type}

theorem nrrE_cons_left {v : α} {c : NodeColor} {l r : RBNode α}
    {ds : List Direction} :
    nrrE (RBNode.node v c l r) (Direction.LEFT :: ds) = true ↔
      nrrE l ds = true ∧ noRedRed r = true ∧
        (c = NodeColor.RED →
          (rootBlack r && (decide (ds = []) || rootBlack l)) = true) := by
  by_cases hc : c = NodeColor.RED
  · simp [nrrE, hc, and_assoc]
  · simp [nrrE, hc, and_assoc]

theorem nrrE_cons_right {v : α} {c : NodeColor} {l r : RBNode α}
    {ds : List Direction} :
    nrrE (RBNode.node v c l r) (Direction.RIGHT :: ds) = true ↔
      nrrE r ds = true ∧ noRedRed l = true ∧
        (c = NodeColor.RED →
          (rootBlack l && (decide (ds = []) || rootBlack r)) = true) := by
  by_cases hc : c = NodeColor.RED
  · simp [nrrE, hc, and_assoc]
  · simp [nrrE, hc, and_assoc]

theorem step_case3 [LinearOrder α] {t : RBNode α} {q : List Direction}
    (ld : Direction) {gv pv cv : α} {gc : NodeColor}
    {ccl ccr pr gr : RBNode α}
    (hg : subtreeAt t q = some (RBNode.node gv gc
      (RBNode.node pv NodeColor.RED (RBNode.node cv NodeColor.RED ccl ccr) pr) gr))
    (hbo : blackOrNil gr = true)
    (hnrr : nrrE t (q ++ [Direction.LEFT, Direction.LEFT]) = true)
    (hbp : (bpbalance t).isSome)
    (hrb : rootBlack t = true)
    (hw : wbst t = true) :
    fixBody ⟨t, q ++ [Direction.LEFT, Direction.LEFT], ld⟩ =
      some ⟨replaceAt t q (RBNode.node pv NodeColor.BLACK
        (RBNode.node cv NodeColor.RED ccl ccr)
        (RBNode.node gv NodeColor.RED pr gr)), q ++ [Direction.RIGHT], ld⟩ ∧
    FixInv (⟨replaceAt t q (RBNode.node pv NodeColor.BLACK
        (RBNode.node cv NodeColor.RED ccl ccr)
        (RBNode.node gv NodeColor.RED pr gr)), q ++ [Direction.RIGHT], ld⟩ :
          NodeWalker α) ∧
    fixCond (⟨replaceAt t q (RBNode.node pv NodeColor.BLACK
        (RBNode.node cv NodeColor.RED ccl ccr)
        (RBNode.node gv NodeColor.RED pr gr)), q ++ [Direction.RIGHT], ld⟩ :
          NodeWalker α) = false ∧
    inorder (replaceAt t q (RBNode.node pv NodeColor.BLACK
        (RBNode.node cv NodeColor.RED ccl ccr)
        (RBNode.node gv NodeColor.RED pr gr))) = inorder t ∧
    dispatchOf ⟨t, q ++ [Direction.LEFT, Direction.LEFT], ld⟩ =
      some FixCase.three := by
  have hstep1 : subtreeAt t (q ++ [Direction.LEFT]) =
      some (RBNode.node pv NodeColor.RED (RBNode.node cv NodeColor.RED ccl ccr) pr) :=
    subtreeAt_concat_left hg
  have hc : subtreeAt t (q ++ [Direction.LEFT, Direction.LEFT]) =
      some (RBNode.node cv NodeColor.RED ccl ccr) := by
    have h2 := subtreeAt_concat_left hstep1
    simpa using h2
  have hnrrg := nrrE_extract hnrr hg
  have hgc : gc = NodeColor.BLACK := by
    cases gc with
    | BLACK => rfl
    | RED =>
      exfalso
      rw [nrrE_cons_left] at hnrrg
      have := hnrrg.2.2 rfl
      simp [rootBlack] at this
  subst hgc
  set g3 := RBNode.node pv NodeColor.BLACK
    (RBNode.node cv NodeColor.RED ccl ccr)
    (RBNode.node gv NodeColor.RED pr gr) with hg3
  have hgrb : rootBlack gr = true := by
    rw [← blackOrNil_eq_rootBlack]; exact hbo
  rw [nrrE_cons_left] at hnrrg
  have hinner := hnrrg.1
  rw [nrrE_cons_left] at hinner
  have hngr : noRedRed gr = true := hnrrg.2.1
  have hnc : noRedRed (RBNode.node cv NodeColor.RED ccl ccr) = true := by
    rw [← nrrE_nil_path]; exact hinner.1
  have hnpr : noRedRed pr = true := hinner.2.1
  have hbpr : rootBlack pr = true := by
    have := hinner.2.2 rfl
    simp only [Bool.and_eq_true] at this
    exact this.1
  have hbg := bpbalance_subtreeAt hbp hg
  obtain ⟨h, hhg⟩ := Option.isSome_iff_exists.mp hbg
  have hh := hhg
  rw [bpbalance_node_iff] at hh
  obtain ⟨hb, hbl, hbr, hhe⟩ := hh
  rw [bpbalance_node_iff] at hbl
  obtain ⟨k1, hk1l, hk1r, hk1e⟩ := hbl
  have hk1 : k1 = hb := by simp at hk1e; omega
  have hcb : bpbalance (RBNode.node cv NodeColor.RED ccl ccr) = some hb :=
    hk1 ▸ hk1l
  have hprb : bpbalance pr = some hb := hk1 ▸ hk1r
  have hInner : bpbalance (RBNode.node gv NodeColor.RED pr gr) = some hb :=
    bpbalance_node_iff.mpr ⟨hb, hprb, hbr, by simp⟩
  have hG3 : bpbalance g3 = some (hb + 1) :=
    bpbalance_node_iff.mpr ⟨hb, hcb, hInner, by simp⟩
  have hGe : h = hb + 1 := by simp at hhe; omega
  have hbalEq : bpbalance g3 = bpbalance (RBNode.node gv NodeColor.BLACK
      (RBNode.node pv NodeColor.RED (RBNode.node cv NodeColor.RED ccl ccr) pr) gr) := by
    rw [hG3, hhg, hGe]
  have hbp' : (bpbalance (replaceAt t q g3)).isSome := by
    rw [bpbalance_replaceAt hg hbalEq]; exact hbp
  have hio : inorder g3 = inorder (RBNode.node gv NodeColor.BLACK
      (RBNode.node pv NodeColor.RED (RBNode.node cv NodeColor.RED ccl ccr) pr) gr) := by
    simp [inorder]
  have hio' : inorder (replaceAt t q g3) = inorder t := inorder_replaceAt hg hio
  have hwg : wbst (RBNode.node gv NodeColor.BLACK
      (RBNode.node pv NodeColor.RED (RBNode.node cv NodeColor.RED ccl ccr) pr) gr) = true :=
    wbst_subtreeAt hw hg
  have hwg3 : wbst g3 = true := by
    rw [wbst_node_iff] at hwg
    obtain ⟨hgl1, hgr1, hwgl, hwgr⟩ := hwg
    rw [wbst_node_iff] at hwgl
    obtain ⟨hc1, hpr1, hwc, hwpr⟩ := hwgl
    rw [allB_node_iff] at hgl1
    obtain ⟨hpg, hcg, hprg⟩ := hgl1
    rw [hg3, wbst_node_iff]
    refine ⟨hc1, ?_, hwc, ?_⟩
    · rw [allB_node_iff]
      refine ⟨hpg, hpr1, ?_⟩
      exact allB_ge_trans hgr1 (by simpa using hpg)
    · rw [wbst_node_iff]
      exact ⟨hprg, hgr1, hwpr, hwgr⟩
  have hwt' : wbst (replaceAt t q g3) = true := wbst_replaceAt hw hg hwg3 hio
  have hnrInner : noRedRed (RBNode.node gv NodeColor.RED pr gr) = true := by
    rw [noRedRed_node_red]
    exact ⟨hbpr, hgrb, hnpr, hngr⟩
  have hrootg3 : rootBlack g3 = true := by rw [hg3]; rfl
  have hnrr' : nrrE (replaceAt t q g3) (q ++ [Direction.RIGHT]) = true := by
    refine nrrE_replace [Direction.RIGHT] hg hnrr (by simp) ?_
      (Or.inr fun _ => hrootg3)
    rw [hg3, nrrE_cons_right]
    refine ⟨?_, hnc, ?_⟩
    · rw [nrrE_nil_path]; exact hnrInner
    · intro hcon; simp at hcon
  have hcur0 : subtreeAt (replaceAt t q g3) q = some g3 :=
    subtreeAt_replaceAt_self hg g3
  have hcur' : subtreeAt (replaceAt t q g3) (q ++ [Direction.RIGHT]) =
      some (RBNode.node gv NodeColor.RED pr gr) :=
    subtreeAt_concat_right hcur0
  have hrb' : rootBlack (replaceAt t q g3) = true := by
    cases q with
    | nil => simpa [replaceAt] using hrootg3
    | cons d' q' => rw [rootBlack_replaceAt]; exact hrb
  have hcond' : fixCond (⟨replaceAt t q g3, q ++ [Direction.RIGHT], ld⟩ :
      NodeWalker α) = false := by
    rw [fixCond_eval hcur0]
    simp
  have hred : isRedNode gr = false := isRedNode_of_blackOrNil hbo
  have hdisp : dispatch (RBNode.node cv NodeColor.RED ccl ccr) Direction.LEFT
      Direction.LEFT
      (RBNode.node pv NodeColor.RED (RBNode.node cv NodeColor.RED ccl ccr) pr) gr =
      FixCase.three := by
    simp [dispatch, isNilT, hred, hbo]
  refine ⟨?_, ?_, hcond', hio', ?_⟩
  · rw [fixBody_eq hc hg]
    simp only [fixArm, hdisp]
    rw [update_mk]
    rw [rightRotate_eval (subtreeAt_replaceAt_self hg
      (RBNode.node gv NodeColor.RED (RBNode.node pv NodeColor.BLACK
        (RBNode.node cv NodeColor.RED ccl ccr) pr) gr))]
    rw [replaceAt_replaceAt]
  · exact FixInv_intro ⟨gv, _, _, hcur'⟩ hnrr' hbp'
      (fun _ => hrb') hwt'
  · rw [dispatchOf_eq hc hg, hdisp]

end StepCase3

end RBT

namespace RBT

open RBNode

section StepCase2

variable {α : Type}

theorem step_case2 [LinearOrder α] {t : RBNode α} {q : List Direction}
    (ld : Direction) {gv pv cv : α} {gc : NodeColor}
    {pl ccl ccr gr : RBNode α}
    (hg : subtreeAt t q = some (RBNode.node gv gc
      (RBNode.node pv NodeColor.RED pl (RBNode.node cv NodeColor.RED ccl ccr)) gr))
    (hbo : blackOrNil gr = true)
    (hnrr : nrrE t (q ++ [Direction.LEFT, Direction.RIGHT]) = true)
    (hbp : (bpbalance t).isSome)
    (hrb : rootBlack t = true)
    (hw : wbst t = true) :
    fixBody ⟨t, q ++ [Direction.LEFT, Direction.RIGHT], ld⟩ =
      some ⟨replaceAt t q (RBNode.node gv NodeColor.BLACK
        (RBNode.node cv NodeColor.RED (RBNode.node pv NodeColor.RED pl ccl) ccr)
        gr), q ++ [Direction.LEFT, Direction.LEFT], ld⟩ ∧
    FixInv (⟨replaceAt t q (RBNode.node gv NodeColor.BLACK
        (RBNode.node cv NodeColor.RED (RBNode.node pv NodeColor.RED pl ccl) ccr)
        gr), q ++ [Direction.LEFT, Direction.LEFT], ld⟩ : NodeWalker α) ∧
    fixCond (⟨replaceAt t q (RBNode.node gv NodeColor.BLACK
        (RBNode.node cv NodeColor.RED (RBNode.node pv NodeColor.RED pl ccl) ccr)
        gr), q ++ [Direction.LEFT, Direction.LEFT], ld⟩ : NodeWalker α) = true ∧
    inorder (replaceAt t q (RBNode.node gv NodeColor.BLACK
        (RBNode.node cv NodeColor.RED (RBNode.node pv NodeColor.RED pl ccl) ccr)
        gr)) = inorder t ∧
    dispatchOf ⟨t, q ++ [Direction.LEFT, Direction.RIGHT], ld⟩ =
      some FixCase.two := by
  have hstep1 : subtreeAt t (q ++ [Direction.LEFT]) =
      some (RBNode.node pv NodeColor.RED pl (RBNode.node cv NodeColor.RED ccl ccr)) :=
    subtreeAt_concat_left hg
  have hc : subtreeAt t (q ++ [Direction.LEFT, Direction.RIGHT]) =
      some (RBNode.node cv NodeColor.RED ccl ccr) := by
    have h2 := subtreeAt_concat_right hstep1
    simpa using h2
  have hnrrg := nrrE_extract hnrr hg
  have hgc : gc = NodeColor.BLACK := by
    cases gc with
    | BLACK => rfl
    | RED =>
      exfalso
      rw [nrrE_cons_left] at hnrrg
      have := hnrrg.2.2 rfl
      simp [rootBlack] at this
  subst hgc
  set g2 := RBNode.node gv NodeColor.BLACK
    (RBNode.node cv NodeColor.RED (RBNode.node pv NodeColor.RED pl ccl) ccr)
    gr with hg2
  set s2 := RBNode.node cv NodeColor.RED (RBNode.node pv NodeColor.RED pl ccl) ccr
    with hs2
  have hgrb : rootBlack gr = true := by
    rw [← blackOrNil_eq_rootBlack]; exact hbo
  rw [nrrE_cons_left] at hnrrg
  have hinner := hnrrg.1
  rw [nrrE_cons_right] at hinner
  have hngr : noRedRed gr = true := hnrrg.2.1
  have hnc : noRedRed (RBNode.node cv NodeColor.RED ccl ccr) = true := by
    rw [← nrrE_nil_path]; exact hinner.1
  have hnpl : noRedRed pl = true := hinner.2.1
  have hbpl : rootBlack pl = true := by
    have := hinner.2.2 rfl
    simp only [Bool.and_eq_true] at this
    exact this.1
  have hnc' := hnc
  rw [noRedRed_node_red] at hnc'
  obtain ⟨hbccl, hbccr, hnccl, hnccr⟩ := hnc'
  have hbg := bpbalance_subtreeAt hbp hg
  obtain ⟨h, hhg⟩ := Option.isSome_iff_exists.mp hbg
  have hh := hhg
  rw [bpbalance_node_iff] at hh
  obtain ⟨hb, hbl, hbr, hhe⟩ := hh
  rw [bpbalance_node_iff] at hbl
  obtain ⟨k1, hk1l, hk1r, hk1e⟩ := hbl
  have hk1 : k1 = hb := by simp at hk1e; omega
  have hplb : bpbalance pl = some hb := hk1 ▸ hk1l
  have hcballoc : bpbalance (RBNode.node cv NodeColor.RED ccl ccr) = some hb :=
    hk1 ▸ hk1r
  have hcb := hcballoc
  rw [bpbalance_node_iff] at hcb
  obtain ⟨k2, hk2l, hk2r, hk2e⟩ := hcb
  have hk2 : k2 = hb := by simp at hk2e; omega
  have hcclb : bpbalance ccl = some hb := hk2 ▸ hk2l
  have hccrb : bpbalance ccr = some hb := hk2 ▸ hk2r
  have hInner : bpbalance (RBNode.node pv NodeColor.RED pl ccl) = some hb :=
    bpbalance_node_iff.mpr ⟨hb, hplb, hcclb, by simp⟩
  have hS2 : bpbalance s2 = some hb :=
    bpbalance_node_iff.mpr ⟨hb, hInner, hccrb, by simp⟩
  have hG2 : bpbalance g2 = some (hb + 1) :=
    bpbalance_node_iff.mpr ⟨hb, hS2, hbr, by simp⟩
  have hGe : h = hb + 1 := by simp at hhe; omega
  have hbalEq : bpbalance g2 = bpbalance (RBNode.node gv NodeColor.BLACK
      (RBNode.node pv NodeColor.RED pl (RBNode.node cv NodeColor.RED ccl ccr))
      gr) := by
    rw [hG2, hhg, hGe]
  have hbp' : (bpbalance (replaceAt t q g2)).isSome := by
    rw [bpbalance_replaceAt hg hbalEq]; exact hbp
  have hio : inorder g2 = inorder (RBNode.node gv NodeColor.BLACK
      (RBNode.node pv NodeColor.RED pl (RBNode.node cv NodeColor.RED ccl ccr))
      gr) := by
    simp [inorder]
  have hio' : inorder (replaceAt t q g2) = inorder t := inorder_replaceAt hg hio
  have hwg : wbst (RBNode.node gv NodeColor.BLACK
      (RBNode.node pv NodeColor.RED pl (RBNode.node cv NodeColor.RED ccl ccr))
      gr) = true := wbst_subtreeAt hw hg
  have hwg2 : wbst g2 = true := by
    rw [wbst_node_iff] at hwg
    obtain ⟨hgl1, hgr1, hwgl, hwgr⟩ := hwg
    rw [wbst_node_iff] at hwgl
    obtain ⟨hpl1, hpc1, hwpl, hwc⟩ := hwgl
    rw [allB_node_iff] at hgl1
    obtain ⟨hpg, hplg, hcg⟩ := hgl1
    rw [allB_node_iff] at hcg
    obtain ⟨hcvg, hcclg, hccrg⟩ := hcg
    rw [allB_node_iff] at hpc1
    obtain ⟨hpvcv, hpcl, hpcr⟩ := hpc1
    rw [wbst_node_iff] at hwc
    obtain ⟨hccl1, hccr1, hwccl, hwccr⟩ := hwc
    rw [hg2, wbst_node_iff]
    refine ⟨?_, hgr1, ?_, hwgr⟩
    · rw [hs2, allB_node_iff]
      refine ⟨hcvg, ?_, hccrg⟩
      rw [allB_node_iff]
      exact ⟨hpg, hplg, hcclg⟩
    · rw [hs2, wbst_node_iff]
      refine ⟨?_, hccr1, ?_, hwccr⟩
      · rw [allB_node_iff]
        refine ⟨by simpa using hpvcv, ?_, hccl1⟩
        exact allB_le_trans hpl1 (by simpa using hpvcv)
      · rw [wbst_node_iff]
        exact ⟨hpl1, hpcl, hwpl, hwccl⟩
  have hwt' : wbst (replaceAt t q g2) = true := wbst_replaceAt hw hg hwg2 hio
  have hnrNew : noRedRed (RBNode.node pv NodeColor.RED pl ccl) = true := by
    rw [noRedRed_node_red]
    exact ⟨hbpl, hbccl, hnpl, hnccl⟩
  have hnrr' : nrrE (replaceAt t q g2)
      (q ++ [Direction.LEFT, Direction.LEFT]) = true := by
    refine nrrE_replace [Direction.LEFT, Direction.LEFT] hg hnrr
      (by simp) ?_ (Or.inr fun _ => by rw [hg2]; rfl)
    rw [hg2, nrrE_cons_left]
    refine ⟨?_, hngr, ?_⟩
    · rw [hs2, nrrE_cons_left]
      refine ⟨?_, hnccr, ?_⟩
      · rw [nrrE_nil_path]; exact hnrNew
      · intro _
        simp [hbccr]
    · intro hcon; simp at hcon
  have hcur0 : subtreeAt (replaceAt t q g2) q = some g2 :=
    subtreeAt_replaceAt_self hg g2
  have hcur1 : subtreeAt (replaceAt t q g2) (q ++ [Direction.LEFT]) = some s2 := by
    have := subtreeAt_concat_left hcur0
    simpa [hg2, hs2] using this
  have hcur' : subtreeAt (replaceAt t q g2)
      (q ++ [Direction.LEFT, Direction.LEFT]) =
      some (RBNode.node pv NodeColor.RED pl ccl) := by
    have h2 := subtreeAt_concat_left hcur1
    simpa using h2
  have hrb' : rootBlack (replaceAt t q g2) = true := by
    cases q with
    | nil => simp [hg2, replaceAt, rootBlack]
    | cons d' q' => rw [rootBlack_replaceAt]; exact hrb
  have hcond' : fixCond (⟨replaceAt t q g2,
      q ++ [Direction.LEFT, Direction.LEFT], ld⟩ : NodeWalker α) = true := by
    have heval : fixCond (⟨replaceAt t q g2,
        (q ++ [Direction.LEFT]) ++ [Direction.LEFT], ld⟩ : NodeWalker α) =
        decide (NodeColor.RED = NodeColor.RED) := fixCond_eval hcur1
    simpa using heval
  have hred : isRedNode gr = false := isRedNode_of_blackOrNil hbo
  have hdisp : dispatch (RBNode.node cv NodeColor.RED ccl ccr) Direction.LEFT
      Direction.RIGHT
      (RBNode.node pv NodeColor.RED pl (RBNode.node cv NodeColor.RED ccl ccr)) gr =
      FixCase.two := by
    simp [dispatch, isNilT, hred, hbo]
  refine ⟨?_, ?_, hcond', hio', ?_⟩
  · rw [fixBody_eq hc hg]
    simp only [fixArm, hdisp]
    have hleft : ((⟨t, q, ld⟩ : NodeWalker α).left) =
        some ⟨t, q ++ [Direction.LEFT], ld⟩ := by
      rw [left_eval hg]
    rw [hleft]
    show leftRotate (⟨t, q ++ [Direction.LEFT], ld⟩ : NodeWalker α) = _
    rw [leftRotate_eval hstep1]
    rw [replaceAt_append hg [Direction.LEFT]]
    simp only [replaceAt]
    simp [hg2, hs2]
  · exact FixInv_intro ⟨pv, _, _, hcur'⟩ hnrr' hbp' (fun _ => hrb') hwt'
  · rw [dispatchOf_eq hc hg, hdisp]

end StepCase2

end RBT

namespace RBT

open RBNode

section StepMirror

variable {α : Type}

theorem step_case1m [LinearOrder α] {t : RBNode α} {q : List Direction}
    {d2 : Direction} (ld : Direction) {gv pv uv : α} {gc : NodeColor}
    {pl pr ul ur : RBNode α}
    (hg : subtreeAt t q = some (RBNode.node gv gc
      (RBNode.node uv NodeColor.RED ul ur) (RBNode.node pv NodeColor.RED pl pr)))
    (hnrr : nrrE t (q ++ [Direction.RIGHT, d2]) = true)
    (hbp : (bpbalance t).isSome)
    (hrb : rootBlack t = true)
    (hw : wbst t = true)
    (hcs : ∃ cv ccl ccr, subtreeAt t (q ++ [Direction.RIGHT, d2]) =
      some (RBNode.node cv NodeColor.RED ccl ccr)) :
    fixBody ⟨t, q ++ [Direction.RIGHT, d2], ld⟩ =
      some ⟨replaceAt t q (RBNode.node gv NodeColor.RED
        (RBNode.node uv NodeColor.BLACK ul ur)
        (RBNode.node pv NodeColor.BLACK pl pr)), q, ld⟩ ∧
    FixInv (⟨replaceAt t q (RBNode.node gv NodeColor.RED
        (RBNode.node uv NodeColor.BLACK ul ur)
        (RBNode.node pv NodeColor.BLACK pl pr)), q, ld⟩ : NodeWalker α) ∧
    inorder (replaceAt t q (RBNode.node gv NodeColor.RED
        (RBNode.node uv NodeColor.BLACK ul ur)
        (RBNode.node pv NodeColor.BLACK pl pr))) = inorder t ∧
    dispatchOf ⟨t, q ++ [Direction.RIGHT, d2], ld⟩ = some FixCase.oneM := by
  obtain ⟨cv, ccl, ccr, hc⟩ := hcs
  have hnrrg := nrrE_extract hnrr hg
  have hgc : gc = NodeColor.BLACK := by
    cases gc with
    | BLACK => rfl
    | RED =>
      exfalso
      rw [nrrE_cons_right] at hnrrg
      have := hnrrg.2.2 rfl
      simp [rootBlack] at this
  subst hgc
  set g1 := RBNode.node gv NodeColor.RED
    (RBNode.node uv NodeColor.BLACK ul ur)
    (RBNode.node pv NodeColor.BLACK pl pr) with hg1
  have hkey : noRedRed pl = true ∧ noRedRed pr = true ∧
      rootBlack ul = true ∧ rootBlack ur = true ∧
      noRedRed ul = true ∧ noRedRed ur = true := by
    cases d2 <;>
      simp [nrrE, nrrE_nil_path, noRedRed, rootBlack] at hnrrg <;>
      tauto
  have hbg := bpbalance_subtreeAt hbp hg
  obtain ⟨h, hhg⟩ := Option.isSome_iff_exists.mp hbg
  have hh := hhg
  rw [bpbalance_node_iff] at hh
  obtain ⟨hb, hbl, hbr, hhe⟩ := hh
  rw [bpbalance_node_iff] at hbl hbr
  obtain ⟨k1, hk1l, hk1r, hk1e⟩ := hbl
  obtain ⟨k2, hk2l, hk2r, hk2e⟩ := hbr
  have hk1 : k1 = hb := by simp at hk1e; omega
  have hk2 : k2 = hb := by simp at hk2e; omega
  have hA : bpbalance (RBNode.node uv NodeColor.BLACK ul ur) = some (hb + 1) :=
    bpbalance_node_iff.mpr ⟨hb, hk1 ▸ hk1l, hk1 ▸ hk1r, by simp⟩
  have hB : bpbalance (RBNode.node pv NodeColor.BLACK pl pr) = some (hb + 1) :=
    bpbalance_node_iff.mpr ⟨hb, hk2 ▸ hk2l, hk2 ▸ hk2r, by simp⟩
  have hG1 : bpbalance g1 = some (hb + 1) :=
    bpbalance_node_iff.mpr ⟨hb + 1, hA, hB, by simp⟩
  have hGe : h = hb + 1 := by simp at hhe; omega
  have hbalEq : bpbalance g1 = bpbalance (RBNode.node gv NodeColor.BLACK
      (RBNode.node uv NodeColor.RED ul ur) (RBNode.node pv NodeColor.RED pl pr)) := by
    rw [hG1, hhg, hGe]
  have hbp' : (bpbalance (replaceAt t q g1)).isSome := by
    rw [bpbalance_replaceAt hg hbalEq]; exact hbp
  have hio : inorder g1 = inorder (RBNode.node gv NodeColor.BLACK
      (RBNode.node uv NodeColor.RED ul ur) (RBNode.node pv NodeColor.RED pl pr)) := by
    simp [inorder]
  have hio' : inorder (replaceAt t q g1) = inorder t := inorder_replaceAt hg hio
  have hwg : wbst (RBNode.node gv NodeColor.BLACK
      (RBNode.node uv NodeColor.RED ul ur) (RBNode.node pv NodeColor.RED pl pr)) = true :=
    wbst_subtreeAt hw hg
  have hwg1 : wbst g1 = true := by
    rw [hg1]
    simp only [wbst_node_iff] at hwg ⊢
    exact hwg
  have hwt' : wbst (replaceAt t q g1) = true := wbst_replaceAt hw hg hwg1 hio
  have hnr1 : noRedRed g1 = true := by
    obtain ⟨e1, e2, e3, e4, e5, e6⟩ := hkey
    simp [hg1, noRedRed, rootBlack, e1, e2, e3, e4, e5, e6]
  have hnrr' : nrrE (replaceAt t q g1) q = true := by
    have hrep := nrrE_replace [] hg hnrr (by simp)
      (by rw [nrrE_nil_path]; exact hnr1) (Or.inl rfl)
    simpa using hrep
  have hcur' : subtreeAt (replaceAt t q g1) q = some g1 :=
    subtreeAt_replaceAt_self hg g1
  have hrb' : q ≠ [] → rootBlack (replaceAt t q g1) = true := by
    intro hq
    cases q with
    | nil => exact absurd rfl hq
    | cons d' q' => rw [rootBlack_replaceAt]; exact hrb
  have hdisp : dispatch (RBNode.node cv NodeColor.RED ccl ccr) Direction.RIGHT d2
      (RBNode.node uv NodeColor.RED ul ur) (RBNode.node pv NodeColor.RED pl pr) =
      FixCase.oneM := by
    simp [dispatch, isNilT, isRedNode, blackOrNil]
  refine ⟨?_, ?_, hio', ?_⟩
  · rw [fixBody_eq hc hg]
    simp only [fixArm, hdisp]
    rfl
  · exact FixInv_intro ⟨gv, _, _, hcur'⟩ hnrr' hbp' hrb' hwt'
  · rw [dispatchOf_eq hc hg, hdisp]

theorem step_case3m [LinearOrder α] {t : RBNode α} {q : List Direction}
    (ld : Direction) {gv pv cv : α} {gc : NodeColor}
    {gl pl ccl ccr : RBNode α}
    (hg : subtreeAt t q = some (RBNode.node gv gc gl
      (RBNode.node pv NodeColor.RED pl (RBNode.node cv NodeColor.RED ccl ccr))))
    (hbo : blackOrNil gl = true)
    (hnrr : nrrE t (q ++ [Direction.RIGHT, Direction.RIGHT]) = true)
    (hbp : (bpbalance t).isSome)
    (hrb : rootBlack t = true)
    (hw : wbst t = true) :
    fixBody ⟨t, q ++ [Direction.RIGHT, Direction.RIGHT], ld⟩ =
      some ⟨replaceAt t q (RBNode.node pv NodeColor.BLACK
        (RBNode.node gv NodeColor.RED gl pl)
        (RBNode.node cv NodeColor.RED ccl ccr)), q ++ [Direction.LEFT], ld⟩ ∧
    FixInv (⟨replaceAt t q (RBNode.node pv NodeColor.BLACK
        (RBNode.node gv NodeColor.RED gl pl)
        (RBNode.node cv NodeColor.RED ccl ccr)), q ++ [Direction.LEFT], ld⟩ :
          NodeWalker α) ∧
    fixCond (⟨replaceAt t q (RBNode.node pv NodeColor.BLACK
        (RBNode.node gv NodeColor.RED gl pl)
        (RBNode.node cv NodeColor.RED ccl ccr)), q ++ [Direction.LEFT], ld⟩ :
          NodeWalker α) = false ∧
    inorder (replaceAt t q (RBNode.node pv NodeColor.BLACK
        (RBNode.node gv NodeColor.RED gl pl)
        (RBNode.node cv NodeColor.RED ccl ccr))) = inorder t ∧
    dispatchOf ⟨t, q ++ [Direction.RIGHT, Direction.RIGHT], ld⟩ =
      some FixCase.threeM := by
  have hstep1 : subtreeAt t (q ++ [Direction.RIGHT]) =
      some (RBNode.node pv NodeColor.RED pl (RBNode.node cv NodeColor.RED ccl ccr)) :=
    subtreeAt_concat_right hg
  have hc : subtreeAt t (q ++ [Direction.RIGHT, Direction.RIGHT]) =
      some (RBNode.node cv NodeColor.RED ccl ccr) := by
    have h2 := subtreeAt_concat_right hstep1
    simpa using h2
  have hnrrg := nrrE_extract hnrr hg
  have hgc : gc = NodeColor.BLACK := by
    cases gc with
    | BLACK => rfl
    | RED =>
      exfalso
      rw [nrrE_cons_right] at hnrrg
      have := hnrrg.2.2 rfl
      simp [rootBlack] at this
  subst hgc
  set g3 := RBNode.node pv NodeColor.BLACK
    (RBNode.node gv NodeColor.RED gl pl)
    (RBNode.node cv NodeColor.RED ccl ccr) with hg3
  have hglb : rootBlack gl = true := by
    rw [← blackOrNil_eq_rootBlack]; exact hbo
  rw [nrrE_cons_right] at hnrrg
  have hinner := hnrrg.1
  rw [nrrE_cons_right] at hinner
  have hngl : noRedRed gl = true := hnrrg.2.1
  have hnc : noRedRed (RBNode.node cv NodeColor.RED ccl ccr) = true := by
    rw [← nrrE_nil_path]; exact hinner.1
  have hnpl : noRedRed pl = true := hinner.2.1
  have hbpl : rootBlack pl = true := by
    have := hinner.2.2 rfl
    simp only [Bool.and_eq_true] at this
    exact this.1
  have hbg := bpbalance_subtreeAt hbp hg
  obtain ⟨h, hhg⟩ := Option.isSome_iff_exists.mp hbg
  have hh := hhg
  rw [bpbalance_node_iff] at hh
  obtain ⟨hb, hbl, hbr, hhe⟩ := hh
  rw [bpbalance_node_iff] at hbr
  obtain ⟨k1, hk1l, hk1r, hk1e⟩ := hbr
  have hk1 : k1 = hb := by simp at hk1e; omega
  have hplb : bpbalance pl = some hb := hk1 ▸ hk1l
  have hcb : bpbalance (RBNode.node cv NodeColor.RED ccl ccr) = some hb :=
    hk1 ▸ hk1r
  have hInner : bpbalance (RBNode.node gv NodeColor.RED gl pl) = some hb :=
    bpbalance_node_iff.mpr ⟨hb, hbl, hplb, by simp⟩
  have hG3 : bpbalance g3 = some (hb + 1) :=
    bpbalance_node_iff.mpr ⟨hb, hInner, hcb, by simp⟩
  have hGe : h = hb + 1 := by simp at hhe; omega
  have hbalEq : bpbalance g3 = bpbalance (RBNode.node gv NodeColor.BLACK gl
      (RBNode.node pv NodeColor.RED pl (RBNode.node cv NodeColor.RED ccl ccr))) := by
    rw [hG3, hhg, hGe]
  have hbp' : (bpbalance (replaceAt t q g3)).isSome := by
    rw [bpbalance_replaceAt hg hbalEq]; exact hbp
  have hio : inorder g3 = inorder (RBNode.node gv NodeColor.BLACK gl
      (RBNode.node pv NodeColor.RED pl (RBNode.node cv NodeColor.RED ccl ccr))) := by
    simp [inorder]
  have hio' : inorder (replaceAt t q g3) = inorder t := inorder_replaceAt hg hio
  have hwg : wbst (RBNode.node gv NodeColor.BLACK gl
      (RBNode.node pv NodeColor.RED pl (RBNode.node cv NodeColor.RED ccl ccr))) = true :=
    wbst_subtreeAt hw hg
  have hwg3 : wbst g3 = true := by
    rw [wbst_node_iff] at hwg
    obtain ⟨hgl1, hgr1, hwgl, hwgr⟩ := hwg
    rw [wbst_node_iff] at hwgr
    obtain ⟨hpl1, hc1, hwpl, hwc⟩ := hwgr
    rw [allB_node_iff] at hgr1
    obtain ⟨hpg, hplg, hcg⟩ := hgr1
    rw [hg3, wbst_node_iff]
    refine ⟨?_, hc1, ?_, hwc⟩
    · rw [allB_node_iff]
      refine ⟨hpg, ?_, hpl1⟩
      exact allB_le_trans hgl1 (by simpa using hpg)
    · rw [wbst_node_iff]
      exact ⟨hgl1, hplg, hwgl, hwpl⟩
  have hwt' : wbst (replaceAt t q g3) = true := wbst_replaceAt hw hg hwg3 hio
  have hnrInner : noRedRed (RBNode.node gv NodeColor.RED gl pl) = true := by
    rw [noRedRed_node_red]
    exact ⟨hglb, hbpl, hngl, hnpl⟩
  have hrootg3 : rootBlack g3 = true := by simp [hg3, rootBlack]
  have hnrr' : nrrE (replaceAt t q g3) (q ++ [Direction.LEFT]) = true := by
    refine nrrE_replace [Direction.LEFT] hg hnrr (by simp) ?_
      (Or.inr fun _ => hrootg3)
    rw [hg3, nrrE_cons_left]
    refine ⟨?_, hnc, ?_⟩
    · rw [nrrE_nil_path]; exact hnrInner
    · intro hcon; simp at hcon
  have hcur0 : subtreeAt (replaceAt t q g3) q = some g3 :=
    subtreeAt_replaceAt_self hg g3
  have hcur' : subtreeAt (replaceAt t q g3) (q ++ [Direction.LEFT]) =
      some (RBNode.node gv NodeColor.RED gl pl) :=
    subtreeAt_concat_left hcur0
  have hrb' : rootBlack (replaceAt t q g3) = true := by
    cases q with
    | nil => simpa [replaceAt] using hrootg3
    | cons d' q' => rw [rootBlack_replaceAt]; exact hrb
  have hcond' : fixCond (⟨replaceAt t q g3, q ++ [Direction.LEFT], ld⟩ :
      NodeWalker α) = false := by
    rw [fixCond_eval hcur0]
    simp
  have hred : isRedNode gl = false := isRedNode_of_blackOrNil hbo
  have hdisp : dispatch (RBNode.node cv NodeColor.RED ccl ccr) Direction.RIGHT
      Direction.RIGHT gl
      (RBNode.node pv NodeColor.RED pl (RBNode.node cv NodeColor.RED ccl ccr)) =
      FixCase.threeM := by
    simp [dispatch, isNilT, hred, hbo]
  refine ⟨?_, ?_, hcond', hio', ?_⟩
  · rw [fixBody_eq hc hg]
    simp only [fixArm, hdisp]
    rw [update_mk]
    rw [leftRotate_eval (subtreeAt_replaceAt_self hg
      (RBNode.node gv NodeColor.RED gl (RBNode.node pv NodeColor.BLACK pl
        (RBNode.node cv NodeColor.RED ccl ccr))))]
    rw [replaceAt_replaceAt]
  · exact FixInv_intro ⟨gv, _, _, hcur'⟩ hnrr' hbp' (fun _ => hrb') hwt'
  · rw [dispatchOf_eq hc hg, hdisp]

theorem step_case2m [LinearOrder α] {t : RBNode α} {q : List Direction}
    (ld : Direction) {gv pv cv : α} {gc : NodeColor}
    {gl ccl ccr pr : RBNode α}
    (hg : subtreeAt t q = some (RBNode.node gv gc gl
      (RBNode.node pv NodeColor.RED (RBNode.node cv NodeColor.RED ccl ccr) pr)))
    (hbo : blackOrNil gl = true)
    (hnrr : nrrE t (q ++ [Direction.RIGHT, Direction.LEFT]) = true)
    (hbp : (bpbalance t).isSome)
    (hrb : rootBlack t = true)
    (hw : wbst t = true) :
    fixBody ⟨t, q ++ [Direction.RIGHT, Direction.LEFT], ld⟩ =
      some ⟨replaceAt t q (RBNode.node gv NodeColor.BLACK gl
        (RBNode.node cv NodeColor.RED ccl (RBNode.node pv NodeColor.RED ccr pr))),
        q ++ [Direction.RIGHT, Direction.RIGHT], ld⟩ ∧
    FixInv (⟨replaceAt t q (RBNode.node gv NodeColor.BLACK gl
        (RBNode.node cv NodeColor.RED ccl (RBNode.node pv NodeColor.RED ccr pr))),
        q ++ [Direction.RIGHT, Direction.RIGHT], ld⟩ : NodeWalker α) ∧
    fixCond (⟨replaceAt t q (RBNode.node gv NodeColor.BLACK gl
        (RBNode.node cv NodeColor.RED ccl (RBNode.node pv NodeColor.RED ccr pr))),
        q ++ [Direction.RIGHT, Direction.RIGHT], ld⟩ : NodeWalker α) = true ∧
    inorder (replaceAt t q (RBNode.node gv NodeColor.BLACK gl
        (RBNode.node cv NodeColor.RED ccl (RBNode.node pv NodeColor.RED ccr pr)))) =
      inorder t ∧
    dispatchOf ⟨t, q ++ [Direction.RIGHT, Direction.LEFT], ld⟩ =
      some FixCase.twoM := by
  have hstep1 : subtreeAt t (q ++ [Direction.RIGHT]) =
      some (RBNode.node pv NodeColor.RED (RBNode.node cv NodeColor.RED ccl ccr) pr) :=
    subtreeAt_concat_right hg
  have hc : subtreeAt t (q ++ [Direction.RIGHT, Direction.LEFT]) =
      some (RBNode.node cv NodeColor.RED ccl ccr) := by
    have h2 := subtreeAt_concat_left hstep1
    simpa using h2
  have hnrrg := nrrE_extract hnrr hg
  have hgc : gc = NodeColor.BLACK := by
    cases gc with
    | BLACK => rfl
    | RED =>
      exfalso
      rw [nrrE_cons_right] at hnrrg
      have := hnrrg.2.2 rfl
      simp [rootBlack] at this
  subst hgc
  set g2 := RBNode.node gv NodeColor.BLACK gl
    (RBNode.node cv NodeColor.RED ccl (RBNode.node pv NodeColor.RED ccr pr))
    with hg2
  set s2 := RBNode.node cv NodeColor.RED ccl (RBNode.node pv NodeColor.RED ccr pr)
    with hs2
  have hglb : rootBlack gl = true := by
    rw [← blackOrNil_eq_rootBlack]; exact hbo
  rw [nrrE_cons_right] at hnrrg
  have hinner := hnrrg.1
  rw [nrrE_cons_left] at hinner
  have hngl : noRedRed gl = true := hnrrg.2.1
  have hnc : noRedRed (RBNode.node cv NodeColor.RED ccl ccr) = true := by
    rw [← nrrE_nil_path]; exact hinner.1
  have hnpr : noRedRed pr = true := hinner.2.1
  have hbpr : rootBlack pr = true := by
    have := hinner.2.2 rfl
    simp only [Bool.and_eq_true] at this
    exact this.1
  have hnc' := hnc
  rw [noRedRed_node_red] at hnc'
  obtain ⟨hbccl, hbccr, hnccl, hnccr⟩ := hnc'
  have hbg := bpbalance_subtreeAt hbp hg
  obtain ⟨h, hhg⟩ := Option.isSome_iff_exists.mp hbg
  have hh := hhg
  rw [bpbalance_node_iff] at hh
  obtain ⟨hb, hbl, hbr, hhe⟩ := hh
  rw [bpbalance_node_iff] at hbr
  obtain ⟨k1, hk1l, hk1r, hk1e⟩ := hbr
  have hk1 : k1 = hb := by simp at hk1e; omega
  have hprb : bpbalance pr = some hb := hk1 ▸ hk1r
  have hcballoc : bpbalance (RBNode.node cv NodeColor.RED ccl ccr) = some hb :=
    hk1 ▸ hk1l
  have hcb := hcballoc
  rw [bpbalance_node_iff] at hcb
  obtain ⟨k2, hk2l, hk2r, hk2e⟩ := hcb
  have hk2 : k2 = hb := by simp at hk2e; omega
  have hcclb : bpbalance ccl = some hb := hk2 ▸ hk2l
  have hccrb : bpbalance ccr = some hb := hk2 ▸ hk2r
  have hInner : bpbalance (RBNode.node pv NodeColor.RED ccr pr) = some hb :=
    bpbalance_node_iff.mpr ⟨hb, hccrb, hprb, by simp⟩
  have hS2 : bpbalance s2 = some hb :=
    bpbalance_node_iff.mpr ⟨hb, hcclb, hInner, by simp⟩
  have hG2 : bpbalance g2 = some (hb + 1) :=
    bpbalance_node_iff.mpr ⟨hb, hbl, hS2, by simp⟩
  have hGe : h = hb + 1 := by simp at hhe; omega
  have hbalEq : bpbalance g2 = bpbalance (RBNode.node gv NodeColor.BLACK gl
      (RBNode.node pv NodeColor.RED (RBNode.node cv NodeColor.RED ccl ccr) pr)) := by
    rw [hG2, hhg, hGe]
  have hbp' : (bpbalance (replaceAt t q g2)).isSome := by
    rw [bpbalance_replaceAt hg hbalEq]; exact hbp
  have hio : inorder g2 = inorder (RBNode.node gv NodeColor.BLACK gl
      (RBNode.node pv NodeColor.RED (RBNode.node cv NodeColor.RED ccl ccr) pr)) := by
    simp [inorder]
  have hio' : inorder (replaceAt t q g2) = inorder t := inorder_replaceAt hg hio
  have hwg : wbst (RBNode.node gv NodeColor.BLACK gl
      (RBNode.node pv NodeColor.RED (RBNode.node cv NodeColor.RED ccl ccr) pr)) = true :=
    wbst_subtreeAt hw hg
  have hwg2 : wbst g2 = true := by
    rw [wbst_node_iff] at hwg
    obtain ⟨hgl1, hgr1, hwgl, hwgr⟩ := hwg
    rw [wbst_node_iff] at hwgr
    obtain ⟨hpc1, hppr1, hwc, hwpr⟩ := hwgr
    rw [allB_node_iff] at hgr1
    obtain ⟨hpg, hcg, hprg⟩ := hgr1
    rw [allB_node_iff] at hcg
    obtain ⟨hcvg, hcclg, hccrg⟩ := hcg
    rw [allB_node_iff] at hpc1
    obtain ⟨hcvpv, hcclpv, hccrpv⟩ := hpc1
    rw [wbst_node_iff] at hwc
    obtain ⟨hccl1, hccr1, hwccl, hwccr⟩ := hwc
    rw [hg2, wbst_node_iff]
    refine ⟨hgl1, ?_, hwgl, ?_⟩
    · rw [hs2, allB_node_iff]
      refine ⟨hcvg, hcclg, ?_⟩
      rw [allB_node_iff]
      exact ⟨hpg, hccrg, hprg⟩
    · rw [hs2, wbst_node_iff]
      refine ⟨hccl1, ?_, hwccl, ?_⟩
      · rw [allB_node_iff]
        refine ⟨by simpa using hcvpv, hccr1, ?_⟩
        exact allB_ge_trans hppr1 (by simpa using hcvpv)
      · rw [wbst_node_iff]
        exact ⟨hccrpv, hppr1, hwccr, hwpr⟩
  have hwt' : wbst (replaceAt t q g2) = true := wbst_replaceAt hw hg hwg2 hio
  have hnrNew : noRedRed (RBNode.node pv NodeColor.RED ccr pr) = true := by
    rw [noRedRed_node_red]
    exact ⟨hbccr, hbpr, hnccr, hnpr⟩
  have hnrr' : nrrE (replaceAt t q g2)
      (q ++ [Direction.RIGHT, Direction.RIGHT]) = true := by
    refine nrrE_replace [Direction.RIGHT, Direction.RIGHT] hg hnrr
      (by simp) ?_ (Or.inr fun _ => by simp [hg2, rootBlack])
    rw [hg2, nrrE_cons_right]
    refine ⟨?_, hngl, ?_⟩
    · rw [hs2, nrrE_cons_right]
      refine ⟨?_, hnccl, ?_⟩
      · rw [nrrE_nil_path]; exact hnrNew
      · intro _
        simp [hbccl]
    · intro hcon; simp at hcon
  have hcur0 : subtreeAt (replaceAt t q g2) q = some g2 :=
    subtreeAt_replaceAt_self hg g2
  have hcur1 : subtreeAt (replaceAt t q g2) (q ++ [Direction.RIGHT]) = some s2 := by
    have := subtreeAt_concat_right hcur0
    simpa [hg2, hs2] using this
  have hcur' : subtreeAt (replaceAt t q g2)
      (q ++ [Direction.RIGHT, Direction.RIGHT]) =
      some (RBNode.node pv NodeColor.RED ccr pr) := by
    have h2 := subtreeAt_concat_right hcur1
    simpa using h2
  have hrb' : rootBlack (replaceAt t q g2) = true := by
    cases q with
    | nil => simp [hg2, replaceAt, rootBlack]
    | cons d' q' => rw [rootBlack_replaceAt]; exact hrb
  have hcond' : fixCond (⟨replaceAt t q g2,
      q ++ [Direction.RIGHT, Direction.RIGHT], ld⟩ : NodeWalker α) = true := by
    have heval : fixCond (⟨replaceAt t q g2,
        (q ++ [Direction.RIGHT]) ++ [Direction.RIGHT], ld⟩ : NodeWalker α) =
        decide (NodeColor.RED = NodeColor.RED) := fixCond_eval hcur1
    simpa using heval
  have hred : isRedNode gl = false := isRedNode_of_blackOrNil hbo
  have hdisp : dispatch (RBNode.node cv NodeColor.RED ccl ccr) Direction.RIGHT
      Direction.LEFT gl
      (RBNode.node pv NodeColor.RED (RBNode.node cv NodeColor.RED ccl ccr) pr) =
      FixCase.twoM := by
    simp [dispatch, isNilT, hred, hbo]
  refine ⟨?_, ?_, hcond', hio', ?_⟩
  · rw [fixBody_eq hc hg]
    simp only [fixArm, hdisp]
    have hright : ((⟨t, q, ld⟩ : NodeWalker α).right) =
        some ⟨t, q ++ [Direction.RIGHT], ld⟩ := by
      rw [right_eval hg]
    rw [hright]
    show rightRotate (⟨t, q ++ [Direction.RIGHT], ld⟩ : NodeWalker α) = _
    rw [rightRotate_eval hstep1]
    rw [replaceAt_append hg [Direction.RIGHT]]
    simp only [replaceAt]
    simp [hg2, hs2]
  · exact FixInv_intro ⟨pv, _, _, hcur'⟩ hnrr' hbp' (fun _ => hrb') hwt'
  · rw [dispatchOf_eq hc hg, hdisp]

end StepMirror

end RBT

namespace RBT

open RBNode

section LoopLemmas

variable {α : Type}

theorem fixCond_true_elim {w : NodeWalker α} (h : fixCond w = true) :
    w.dirs ≠ [] ∧ ∃ pv pl pr, subtreeAt w.tree w.dirs.dropLast =
      some (RBNode.node pv NodeColor.RED pl pr) := by
  simp only [fixCond, Bool.and_eq_true] at h
  obtain ⟨h1, h2⟩ := h
  have h1' : w.dirs ≠ [] := by
    simpa [NodeWalker.isRoot] using h1
  rw [decide_eq_true_eq] at h2
  refine ⟨h1', ?_⟩
  rw [NodeWalker.parent, if_neg h1'] at h2
  cases hP : subtreeAt w.tree w.dirs.dropLast with
  | none => rw [hP] at h2; simp at h2
  | some P =>
    rw [hP] at h2
    cases P with
    | nil => simp [rootColorOpt] at h2
    | node x col l r =>
      simp only [Option.some_bind, rootColorOpt, Option.some.injEq] at h2
      subst h2
      exact ⟨x, l, r, rfl⟩

theorem fixCond_false_elim {w : NodeWalker α} (h : fixCond w = false)
    (hne : w.dirs ≠ []) {x : α} {col : NodeColor} {l r : RBNode α}
    (hP : subtreeAt w.tree w.dirs.dropLast = some (RBNode.node x col l r)) :
    col = NodeColor.BLACK := by
  cases col with
  | BLACK => rfl
  | RED =>
    exfalso
    have : fixCond w = true := by
      simp only [fixCond, Bool.and_eq_true]
      constructor
      · simpa [NodeWalker.isRoot] using hne
      · rw [decide_eq_true_eq, NodeWalker.parent, if_neg hne, hP]
        simp [rootColorOpt]
    rw [this] at h
    exact absurd h (by simp)

theorem tree_node_of_current {w : NodeWalker α} {cv : α} {cl cr : RBNode α}
    {cc : NodeColor}
    (hcur : w.current = some (RBNode.node cv cc cl cr)) :
    ∃ v' c' l' r', w.tree = RBNode.node v' c' l' r' := by
  cases ht : w.tree with
  | nil =>
    exfalso
    rw [NodeWalker.current, ht] at hcur
    cases hd : w.dirs with
    | nil => rw [hd] at hcur; simp [subtreeAt] at hcur
    | cons d ds => rw [hd] at hcur; simp [subtreeAt] at hcur
  | node v' c' l' r' => exact ⟨v', c', l', r', rfl⟩

theorem fixExit [LinearOrder α] {w : NodeWalker α} (hI : FixInv w)
    (hcond : fixCond w = false) :
    noRedRed w.tree = true ∧ (bpbalance w.tree).isSome ∧ wbst w.tree = true ∧
      ∃ v' c' l' r', w.tree = RBNode.node v' c' l' r' := by
  unfold FixInv at hI
  obtain ⟨⟨cv, cl, cr, hcur⟩, hnrr, hbp, hrb, hw⟩ := hI
  refine ⟨?_, hbp, hw, tree_node_of_current hcur⟩
  cases hd : w.dirs with
  | nil =>
    rw [hd, nrrE_nil_path] at hnrr
    exact hnrr
  | cons d0 ds0 =>
    have hne : w.dirs ≠ [] := by rw [hd]; simp
    have hdec : w.dirs = w.dirs.dropLast ++ [w.dirs.getLast (by rw [hd]; simp)] :=
      (List.dropLast_append_getLast _).symm
    have hcur' : subtreeAt w.tree
        (w.dirs.dropLast ++ [w.dirs.getLast (by rw [hd]; simp)]) =
        some (RBNode.node cv NodeColor.RED cl cr) := by
      rw [← hdec]; exact hcur
    obtain ⟨P, hPsub, hPstep⟩ := subtreeAt_append_some hcur'
    cases P with
    | nil => simp [subtreeAt] at hPstep
    | node x col l r =>
      have hcol : col = NodeColor.BLACK := fixCond_false_elim hcond hne hPsub
      subst hcol
      have hnrr2 : nrrE w.tree
          (w.dirs.dropLast ++ [w.dirs.getLast (by rw [hd]; simp)]) = true := by
        rw [← hdec]; exact hnrr
      exact nrrE_discharge hnrr2 hPsub

theorem fixLoop_succ_true [DecidableEq α] {w w1 : NodeWalker α} {n : Nat}
    (h : fixCond w = true) (hb : fixBody w = some w1) :
    fixLoop (n + 1) w = fixLoop n w1 := by
  simp [fixLoop, h, hb]

theorem fixLoop_succ_false [DecidableEq α] {w : NodeWalker α} {n : Nat}
    (h : fixCond w = false) : fixLoop (n + 1) w = some w := by
  simp [fixLoop, h]

theorem fixLoop_mono [DecidableEq α] {n : Nat} :
    ∀ {w w' : NodeWalker α}, fixLoop n w = some w' →
      fixLoop (n + 1) w = some w' := by
  induction n with
  | zero => intro w w' h; simp [fixLoop] at h
  | succ n ih =>
    intro w w' h
    by_cases hc : fixCond w = true
    · rw [fixLoop] at h
      rw [if_pos hc] at h
      cases hb : fixBody w with
      | none => rw [hb] at h; simp at h
      | some w1 =>
        rw [hb] at h
        rw [fixLoop_succ_true hc hb]
        exact ih h
    · have hc' : fixCond w = false := by
        cases hfc : fixCond w
        · rfl
        · exact absurd hfc hc
      rw [fixLoop_succ_false hc'] at h
      rw [fixLoop_succ_false hc']
      exact h

theorem fixLoop_le [DecidableEq α] {n m : Nat} (hnm : n ≤ m)
    {w w' : NodeWalker α} (h : fixLoop n w = some w') :
    fixLoop m w = some w' := by
  induction m with
  | zero =>
    have : n = 0 := by omega
    subst this
    exact h
  | succ m ih =>
    by_cases hn : n = m + 1
    · subst hn; exact h
    · have : n ≤ m := by omega
      exact fixLoop_mono (ih this)

theorem FixInv_len2 [LinearOrder α] {w : NodeWalker α} (hI : FixInv w)
    (hcond : fixCond w = true) : 2 ≤ w.dirs.length := by
  obtain ⟨hne, pv, pl, pr, hP⟩ := fixCond_true_elim hcond
  unfold FixInv at hI
  obtain ⟨_, _, _, hrb, _⟩ := hI
  have hrb' := hrb hne
  rcases hd : w.dirs with _ | ⟨d0, ds0⟩
  · exact absurd hd hne
  · rcases ds0 with _ | ⟨d1, ds1⟩
    · exfalso
      rw [hd] at hP
      simp only [List.dropLast_single, subtreeAt, Option.some.injEq] at hP
      rw [hP] at hrb'
      simp [rootBlack] at hrb'
    · simp [hd]

end LoopLemmas

end RBT


namespace RBT

open RBNode

section LoopRun

variable {α : Type}

theorem loopFinish [LinearOrder α] {w1 : NodeWalker α} (hI1 : FixInv w1)
    (hcond1 : fixCond w1 = false) {m : Nat} :
    ∃ w', fixLoop (m + 1) w1 = some w' ∧ noRedRed w'.tree = true ∧
      (bpbalance w'.tree).isSome ∧ wbst w'.tree = true ∧
      inorder w'.tree = inorder w1.tree ∧
      ∃ v' c' l' r', w'.tree = RBNode.node v' c' l' r' := by
  obtain ⟨hnr, hbp, hww, hnode⟩ := fixExit hI1 hcond1
  exact ⟨w1, fixLoop_succ_false hcond1, hnr, hbp, hww, rfl, hnode⟩

theorem blackOrNil_false_red {s : RBNode α} (h : ¬ blackOrNil s = true) :
    ∃ uv ul ur, s = RBNode.node uv NodeColor.RED ul ur := by
  cases s with
  | nil => exact absurd rfl h
  | node uv uc ul ur =>
    cases uc with
    | RED => exact ⟨uv, ul, ur, rfl⟩
    | BLACK => exact absurd rfl h

theorem fixLoop_run [LinearOrder α] :
    ∀ (n : Nat) (w : NodeWalker α), FixInv w → w.dirs.length + 2 ≤ n →
      ∃ w', fixLoop n w = some w' ∧ noRedRed w'.tree = true ∧
        (bpbalance w'.tree).isSome ∧ wbst w'.tree = true ∧
        inorder w'.tree = inorder w.tree ∧
        ∃ v' c' l' r', w'.tree = RBNode.node v' c' l' r' := by
  intro n
  induction n with
  | zero => intro w hI hlen; omega
  | succ n ih =>
    intro w hI hlen
    by_cases hcond : fixCond w = true
    case neg =>
      have hcond' : fixCond w = false := by
        cases hfc : fixCond w
        · rfl
        · exact absurd hfc hcond
      obtain ⟨hnr, hbp, hww, hnode⟩ := fixExit hI hcond'
      exact ⟨w, fixLoop_succ_false hcond', hnr, hbp, hww, rfl, hnode⟩
    case pos =>
      have hlen2 := FixInv_len2 hI hcond
      obtain ⟨q, d1, d2, hdec⟩ := dirs_decomp hlen2
      obtain ⟨t, p, ld⟩ := w
      simp only at hdec
      subst hdec
      have hlenq : q.length + 4 ≤ n + 1 := by
        simp only [List.length_append, List.length_cons, List.length_nil] at hlen
        omega
      have hI' := hI
      unfold FixInv at hI'
      obtain ⟨⟨cv, ccl, ccr, hcur0⟩, hnrr0, hbp0, hrbc, hwb0⟩ := hI'
      have hcur : subtreeAt t (q ++ [d1, d2]) =
          some (RBNode.node cv NodeColor.RED ccl ccr) := hcur0
      have hnrr : nrrE t (q ++ [d1, d2]) = true := hnrr0
      have hbp : (bpbalance t).isSome := hbp0
      have hwb : wbst t = true := hwb0
      have hrb : rootBlack t = true := hrbc (by simp)
      obtain ⟨-, pv, ppl, ppr, hP0⟩ := fixCond_true_elim hcond
      have hdrop : ((q ++ [d1, d2] : List Direction)).dropLast = q ++ [d1] := by
        rw [show (q ++ [d1, d2] : List Direction) = (q ++ [d1]) ++ [d2] by simp,
          List.dropLast_concat]
      have hP : subtreeAt t (q ++ [d1]) =
          some (RBNode.node pv NodeColor.RED ppl ppr) := by
        rw [← hdrop]; exact hP0
      obtain ⟨g, hgsub, hgstep⟩ := subtreeAt_append_some hP
      cases g with
      | nil => simp [subtreeAt] at hgstep
      | node gv gc gl gr =>
        cases d1 with
        | LEFT =>
          have hgl : gl = RBNode.node pv NodeColor.RED ppl ppr := by
            simpa [subtreeAt] using hgstep
          subst hgl
          by_cases hbo : blackOrNil gr = true
          case neg =>
            obtain ⟨uv, ul, ur, huncle⟩ := blackOrNil_false_red hbo
            subst huncle
            obtain ⟨hbody, hI1, hio1, -⟩ :=
              step_case1 ld hgsub hnrr hbp hrb hwb ⟨cv, ccl, ccr, hcur⟩
            rw [fixLoop_succ_true hcond hbody]
            obtain ⟨w', hrun, p1, p2, p3, hio9, hnode9⟩ :=
              ih _ hI1 (by show q.length + 2 ≤ n; omega)
            exact ⟨w', hrun, p1, p2, p3, hio9.trans hio1, hnode9⟩
          case pos =>
            cases d2 with
            | LEFT =>
              have h1 := subtreeAt_concat_left hP
              have hppl : ppl = RBNode.node cv NodeColor.RED ccl ccr := by
                have h1' : subtreeAt t (q ++ [Direction.LEFT, Direction.LEFT]) =
                    some ppl := by simpa using h1
                rw [h1'] at hcur
                exact Option.some.inj hcur
              subst hppl
              obtain ⟨hbody, hI1, hcond1, hio1, -⟩ :=
                step_case3 ld hgsub hbo hnrr hbp hrb hwb
              obtain ⟨m, rfl⟩ : ∃ m, n = m + 1 := ⟨n - 1, by omega⟩
              rw [fixLoop_succ_true hcond hbody]
              obtain ⟨w', hrun, p1, p2, p3, hio9, hnode9⟩ := loopFinish hI1 hcond1
              exact ⟨w', hrun, p1, p2, p3, hio9.trans hio1, hnode9⟩
            | RIGHT =>
              have h1 := subtreeAt_concat_right hP
              have hppr : ppr = RBNode.node cv NodeColor.RED ccl ccr := by
                have h1' : subtreeAt t (q ++ [Direction.LEFT, Direction.RIGHT]) =
                    some ppr := by simpa using h1
                rw [h1'] at hcur
                exact Option.some.inj hcur
              subst hppr
              obtain ⟨hbody, hI1, hcond1, hio1, -⟩ :=
                step_case2 ld hgsub hbo hnrr hbp hrb hwb
              have hI1' := hI1
              unfold FixInv at hI1'
              obtain ⟨-, hnrr1, hbp1, hrbc1, hwb1⟩ := hI1'
              obtain ⟨hbody2, hI2, hcond2, hio2, -⟩ :=
                step_case3 ld
                  (subtreeAt_replaceAt_self hgsub _) hbo hnrr1 hbp1
                  (hrbc1 (by simp)) hwb1
              obtain ⟨m, rfl⟩ : ∃ m, n = m + 1 := ⟨n - 1, by omega⟩
              rw [fixLoop_succ_true hcond hbody]
              rw [fixLoop_succ_true hcond1 hbody2]
              obtain ⟨m', rfl⟩ : ∃ m', m = m' + 1 := ⟨m - 1, by omega⟩
              obtain ⟨w', hrun, p1, p2, p3, hio9, hnode9⟩ := loopFinish hI2 hcond2
              exact ⟨w', hrun, p1, p2, p3, (hio9.trans hio2).trans hio1, hnode9⟩
        | RIGHT =>
          have hgr : gr = RBNode.node pv NodeColor.RED ppl ppr := by
            simpa [subtreeAt] using hgstep
          subst hgr
          by_cases hbo : blackOrNil gl = true
          case neg =>
            obtain ⟨uv, ul, ur, huncle⟩ := blackOrNil_false_red hbo
            subst huncle
            obtain ⟨hbody, hI1, hio1, -⟩ :=
              step_case1m ld hgsub hnrr hbp hrb hwb ⟨cv, ccl, ccr, hcur⟩
            rw [fixLoop_succ_true hcond hbody]
            obtain ⟨w', hrun, p1, p2, p3, hio9, hnode9⟩ :=
              ih _ hI1 (by show q.length + 2 ≤ n; omega)
            exact ⟨w', hrun, p1, p2, p3, hio9.trans hio1, hnode9⟩
          case pos =>
            cases d2 with
            | RIGHT =>
              have h1 := subtreeAt_concat_right hP
              have hppr : ppr = RBNode.node cv NodeColor.RED ccl ccr := by
                have h1' : subtreeAt t (q ++ [Direction.RIGHT, Direction.RIGHT]) =
                    some ppr := by simpa using h1
                rw [h1'] at hcur
                exact Option.some.inj hcur
              subst hppr
              obtain ⟨hbody, hI1, hcond1, hio1, -⟩ :=
                step_case3m ld hgsub hbo hnrr hbp hrb hwb
              obtain ⟨m, rfl⟩ : ∃ m, n = m + 1 := ⟨n - 1, by omega⟩
              rw [fixLoop_succ_true hcond hbody]
              obtain ⟨w', hrun, p1, p2, p3, hio9, hnode9⟩ := loopFinish hI1 hcond1
              exact ⟨w', hrun, p1, p2, p3, hio9.trans hio1, hnode9⟩
            | LEFT =>
              have h1 := subtreeAt_concat_left hP
              have hppl : ppl = RBNode.node cv NodeColor.RED ccl ccr := by
                have h1' : subtreeAt t (q ++ [Direction.RIGHT, Direction.LEFT]) =
                    some ppl := by simpa using h1
                rw [h1'] at hcur
                exact Option.some.inj hcur
              subst hppl
              obtain ⟨hbody, hI1, hcond1, hio1, -⟩ :=
                step_case2m ld hgsub hbo hnrr hbp hrb hwb
              have hI1' := hI1
              unfold FixInv at hI1'
              obtain ⟨-, hnrr1, hbp1, hrbc1, hwb1⟩ := hI1'
              obtain ⟨hbody2, hI2, hcond2, hio2, -⟩ :=
                step_case3m ld
                  (subtreeAt_replaceAt_self hgsub _) hbo hnrr1 hbp1
                  (hrbc1 (by simp)) hwb1
              obtain ⟨m, rfl⟩ : ∃ m, n = m + 1 := ⟨n - 1, by omega⟩
              rw [fixLoop_succ_true hcond hbody]
              rw [fixLoop_succ_true hcond1 hbody2]
              obtain ⟨m', rfl⟩ : ∃ m', m = m' + 1 := ⟨m - 1, by omega⟩
              obtain ⟨w', hrun, p1, p2, p3, hio9, hnode9⟩ := loopFinish hI2 hcond2
              exact ⟨w', hrun, p1, p2, p3, (hio9.trans hio2).trans hio1, hnode9⟩

end LoopRun

end RBT

namespace RBT

open RBNode

section AddMaster

variable {α : Type}

theorem noRedRed_blacken {v : α} {c : NodeColor} {l r : RBNode α}
    (h : noRedRed (RBNode.node v c l r) = true) :
    noRedRed (RBNode.node v NodeColor.BLACK l r) = true := by
  cases c with
  | BLACK => exact h
  | RED =>
    rw [noRedRed_node_red] at h
    rw [noRedRed_node_black]
    exact ⟨h.2.2.1, h.2.2.2⟩

theorem bpbalance_blacken {v : α} {c : NodeColor} {l r : RBNode α}
    (h : (bpbalance (RBNode.node v c l r)).isSome) :
    (bpbalance (RBNode.node v NodeColor.BLACK l r)).isSome := by
  obtain ⟨k, hk⟩ := Option.isSome_iff_exists.mp h
  rw [bpbalance_node_iff] at hk
  obtain ⟨hb, h1, h2, h3⟩ := hk
  have : bpbalance (RBNode.node v NodeColor.BLACK l r) = some (hb + 1) :=
    bpbalance_node_iff.mpr ⟨hb, h1, h2, by simp⟩
  rw [this]
  rfl

theorem wbst_blacken [LinearOrder α] {v : α} {c : NodeColor} {l r : RBNode α}
    (h : wbst (RBNode.node v c l r) = true) :
    wbst (RBNode.node v NodeColor.BLACK l r) = true := by
  rw [wbst_node_iff] at h ⊢
  exact h

theorem insertFix_ok [LinearOrder α] {w : NodeWalker α} (hI : FixInv w) :
    ∃ t', insertFix w = some t' ∧ GoodW t' ∧ inorder t' = inorder w.tree := by
  obtain ⟨w', hrun, hnr, hbp, hww, hio, v', c', l', r', htree⟩ :=
    fixLoop_run (w.dirs.length + 2) w hI (le_refl _)
  rw [htree] at hnr hbp hww hio
  refine ⟨RBNode.node v' NodeColor.BLACK l' r', ?_, ?_, ?_⟩
  · simp only [insertFix, hrun, htree]
  · exact ⟨by simp [rootBlack], noRedRed_blacken hnr, bpbalance_blacken hbp,
      wbst_blacken hww⟩
  · rw [← hio]
    simp [inorder]

theorem add_ok [LinearOrder α] {t : RBNode α} (hG : GoodW t) (v : α) :
    ∃ t', add t v = some t' ∧ GoodW t' ∧
      inorder t' = (inorder t).takeWhile (fun y => decide (y ≤ v)) ++
        v :: (inorder t).dropWhile (fun y => decide (y ≤ v)) := by
  obtain ⟨hrb, hnr, hbp, hwb⟩ := hG
  have hslot := subtreeAt_findSlot v t
  have hcur : subtreeAt
      (replaceAt t (findSlot v t) (RBNode.node v NodeColor.RED RBNode.nil RBNode.nil))
      (findSlot v t) = some (RBNode.node v NodeColor.RED RBNode.nil RBNode.nil) :=
    subtreeAt_replaceAt_self hslot _
  have hnrr1 : nrrE
      (replaceAt t (findSlot v t) (RBNode.node v NodeColor.RED RBNode.nil RBNode.nil))
      (findSlot v t) = true :=
    nrrE_attach hnr hslot (by simp [noRedRed, rootBlack])
  have hbal : bpbalance (RBNode.node v NodeColor.RED RBNode.nil RBNode.nil) =
      bpbalance (RBNode.nil : RBNode α) := by
    simp [bpbalance]
  have hbp1 : (bpbalance (replaceAt t (findSlot v t)
      (RBNode.node v NodeColor.RED RBNode.nil RBNode.nil))).isSome := by
    rw [bpbalance_replaceAt hslot hbal]
    exact hbp
  have hrb1 : findSlot v t ≠ [] → rootBlack (replaceAt t (findSlot v t)
      (RBNode.node v NodeColor.RED RBNode.nil RBNode.nil)) = true := by
    intro hne
    cases hp2 : findSlot v t with
    | nil => exact absurd hp2 hne
    | cons d ds =>
      rw [rootBlack_replaceAt]
      exact hrb
  have hwb1 : wbst (replaceAt t (findSlot v t)
      (RBNode.node v NodeColor.RED RBNode.nil RBNode.nil)) = true :=
    wbst_attach hwb v _
  have hI : FixInv (⟨replaceAt t (findSlot v t)
      (RBNode.node v NodeColor.RED RBNode.nil RBNode.nil), findSlot v t,
      (findSlot v t).getLastD Direction.LEFT⟩ : NodeWalker α) :=
    FixInv_intro ⟨v, RBNode.nil, RBNode.nil, hcur⟩ hnrr1 hbp1 hrb1 hwb1
  obtain ⟨t', hfix, hG', hio⟩ := insertFix_ok hI
  refine ⟨t', hfix, hG', ?_⟩
  rw [hio]
  exact inorder_attach hwb v NodeColor.RED

theorem GoodW_nil [LinearOrder α] : GoodW (RBNode.nil : RBNode α) :=
  ⟨rfl, rfl, by simp [bpbalance], rfl⟩

theorem addAllFrom_ok [LinearOrder α] : ∀ (vs : List α) (t : RBNode α),
    GoodW t → ∃ t', addAllFrom t vs = some t' ∧ GoodW t' ∧
      (inorder t').Perm (inorder t ++ vs) := by
  intro vs
  induction vs with
  | nil => intro t hG; exact ⟨t, rfl, hG, by simp⟩
  | cons v vs ih =>
    intro t hG
    obtain ⟨t1, hadd, hG1, hio1⟩ := add_ok hG v
    obtain ⟨t', hrun, hG', hperm⟩ := ih t1 hG1
    refine ⟨t', ?_, hG', ?_⟩
    · simp only [addAllFrom, hadd]
      exact hrun
    · have hio1p : (inorder t1).Perm (v :: inorder t) := by
        rw [hio1]
        have hpm : ((inorder t).takeWhile (fun y => decide (y ≤ v)) ++
            v :: (inorder t).dropWhile (fun y => decide (y ≤ v))).Perm
            (v :: ((inorder t).takeWhile (fun y => decide (y ≤ v)) ++
              (inorder t).dropWhile (fun y => decide (y ≤ v)))) :=
          List.perm_middle
        refine hpm.trans ?_
        rw [List.takeWhile_append_dropWhile]
      refine hperm.trans ?_
      have h2 : (inorder t1 ++ vs).Perm ((v :: inorder t) ++ vs) :=
        hio1p.append_right vs
      refine h2.trans ?_
      simp only [List.cons_append]
      exact (List.perm_middle).symm

theorem addList_ok [LinearOrder α] (vs : List α) :
    ∃ t, addList vs = some t ∧ GoodW t ∧ (inorder t).Perm vs := by
  obtain ⟨t, hrun, hG, hperm⟩ := addAllFrom_ok vs RBNode.nil GoodW_nil
  exact ⟨t, hrun, hG, by simpa [inorder] using hperm⟩

end AddMaster

end RBT

namespace RBT

open RBNode

section Classify

variable {α : Type}

theorem fixStep_classify [LinearOrder α] {w : NodeWalker α} (hI : FixInv w)
    (hcond : fixCond w = true) :
    ∃ w', fixBody w = some w' ∧
      (((dispatchOf w = some FixCase.one ∨ dispatchOf w = some FixCase.oneM) ∧
          w'.dirs.length + 2 = w.dirs.length) ∨
       ((dispatchOf w = some FixCase.three ∨ dispatchOf w = some FixCase.threeM) ∧
          fixCond w' = false) ∨
       ((dispatchOf w = some FixCase.two ∨ dispatchOf w = some FixCase.twoM) ∧
          fixCond w' = true ∧
          (dispatchOf w' = some FixCase.three ∨
            dispatchOf w' = some FixCase.threeM))) := by
  have hlen2 := FixInv_len2 hI hcond
  obtain ⟨q, d1, d2, hdec⟩ := dirs_decomp hlen2
  obtain ⟨t, p, ld⟩ := w
  simp only at hdec
  subst hdec
  have hI' := hI
  unfold FixInv at hI'
  obtain ⟨⟨cv, ccl, ccr, hcur0⟩, hnrr0, hbp0, hrbc, hwb0⟩ := hI'
  have hcur : subtreeAt t (q ++ [d1, d2]) =
      some (RBNode.node cv NodeColor.RED ccl ccr) := hcur0
  have hnrr : nrrE t (q ++ [d1, d2]) = true := hnrr0
  have hbp : (bpbalance t).isSome := hbp0
  have hwb : wbst t = true := hwb0
  have hrb : rootBlack t = true := hrbc (by simp)
  obtain ⟨-, pv, ppl, ppr, hP0⟩ := fixCond_true_elim hcond
  have hdrop : ((q ++ [d1, d2] : List Direction)).dropLast = q ++ [d1] := by
    rw [show (q ++ [d1, d2] : List Direction) = (q ++ [d1]) ++ [d2] by simp,
      List.dropLast_concat]
  have hP : subtreeAt t (q ++ [d1]) =
      some (RBNode.node pv NodeColor.RED ppl ppr) := by
    rw [← hdrop]; exact hP0
  obtain ⟨g, hgsub, hgstep⟩ := subtreeAt_append_some hP
  cases g with
  | nil => simp [subtreeAt] at hgstep
  | node gv gc gl gr =>
    cases d1 with
    | LEFT =>
      have hgl : gl = RBNode.node pv NodeColor.RED ppl ppr := by
        simpa [subtreeAt] using hgstep
      subst hgl
      by_cases hbo : blackOrNil gr = true
      case neg =>
        obtain ⟨uv, ul, ur, huncle⟩ := blackOrNil_false_red hbo
        subst huncle
        obtain ⟨hbody, -, -, hdisp⟩ :=
          step_case1 ld hgsub hnrr hbp hrb hwb ⟨cv, ccl, ccr, hcur⟩
        exact ⟨_, hbody, Or.inl ⟨Or.inl hdisp, by simp⟩⟩
      case pos =>
        cases d2 with
        | LEFT =>
          have h1 := subtreeAt_concat_left hP
          have hppl : ppl = RBNode.node cv NodeColor.RED ccl ccr := by
            have h1' : subtreeAt t (q ++ [Direction.LEFT, Direction.LEFT]) =
                some ppl := by simpa using h1
            rw [h1'] at hcur
            exact Option.some.inj hcur
          subst hppl
          obtain ⟨hbody, -, hcond1, -, hdisp⟩ :=
            step_case3 ld hgsub hbo hnrr hbp hrb hwb
          exact ⟨_, hbody, Or.inr (Or.inl ⟨Or.inl hdisp, hcond1⟩)⟩
        | RIGHT =>
          have h1 := subtreeAt_concat_right hP
          have hppr : ppr = RBNode.node cv NodeColor.RED ccl ccr := by
            have h1' : subtreeAt t (q ++ [Direction.LEFT, Direction.RIGHT]) =
                some ppr := by simpa using h1
            rw [h1'] at hcur
            exact Option.some.inj hcur
          subst hppr
          obtain ⟨hbody, hI1, hcond1, -, hdisp⟩ :=
            step_case2 ld hgsub hbo hnrr hbp hrb hwb
          have hI1' := hI1
          unfold FixInv at hI1'
          obtain ⟨-, hnrr1, hbp1, hrbc1, hwb1⟩ := hI1'
          obtain ⟨-, -, -, -, hdisp2⟩ :=
            step_case3 ld
              (subtreeAt_replaceAt_self hgsub _) hbo hnrr1 hbp1
              (hrbc1 (by simp)) hwb1
          exact ⟨_, hbody, Or.inr (Or.inr ⟨Or.inl hdisp, hcond1, Or.inl hdisp2⟩)⟩
    | RIGHT =>
      have hgr : gr = RBNode.node pv NodeColor.RED ppl ppr := by
        simpa [subtreeAt] using hgstep
      subst hgr
      by_cases hbo : blackOrNil gl = true
      case neg =>
        obtain ⟨uv, ul, ur, huncle⟩ := blackOrNil_false_red hbo
        subst huncle
        obtain ⟨hbody, -, -, hdisp⟩ :=
          step_case1m ld hgsub hnrr hbp hrb hwb ⟨cv, ccl, ccr, hcur⟩
        exact ⟨_, hbody, Or.inl ⟨Or.inr hdisp, by simp⟩⟩
      case pos =>
        cases d2 with
        | RIGHT =>
          have h1 := subtreeAt_concat_right hP
          have hppr : ppr = RBNode.node cv NodeColor.RED ccl ccr := by
            have h1' : subtreeAt t (q ++ [Direction.RIGHT, Direction.RIGHT]) =
                some ppr := by simpa using h1
            rw [h1'] at hcur
            exact Option.some.inj hcur
          subst hppr
          obtain ⟨hbody, -, hcond1, -, hdisp⟩ :=
            step_case3m ld hgsub hbo hnrr hbp hrb hwb
          exact ⟨_, hbody, Or.inr (Or.inl ⟨Or.inr hdisp, hcond1⟩)⟩
        | LEFT =>
          have h1 := subtreeAt_concat_left hP
          have hppl : ppl = RBNode.node cv NodeColor.RED ccl ccr := by
            have h1' : subtreeAt t (q ++ [Direction.RIGHT, Direction.LEFT]) =
                some ppl := by simpa using h1
            rw [h1'] at hcur
            exact Option.some.inj hcur
          subst hppl
          obtain ⟨hbody, hI1, hcond1, -, hdisp⟩ :=
            step_case2m ld hgsub hbo hnrr hbp hrb hwb
          have hI1' := hI1
          unfold FixInv at hI1'
          obtain ⟨-, hnrr1, hbp1, hrbc1, hwb1⟩ := hI1'
          obtain ⟨-, -, -, -, hdisp2⟩ :=
            step_case3m ld
              (subtreeAt_replaceAt_self hgsub _) hbo hnrr1 hbp1
              (hrbc1 (by simp)) hwb1
          exact ⟨_, hbody, Or.inr (Or.inr ⟨Or.inr hdisp, hcond1, Or.inr hdisp2⟩)⟩

theorem fixBody_isSome_of [LinearOrder α] {w : NodeWalker α} (hI : FixInv w)
    (hc : fixCond w = true) : (fixBody w).isSome := by
  obtain ⟨w', hbody, -⟩ := fixStep_classify hI hc
  rw [hbody]
  rfl

end Classify

end RBT

namespace RBT

open RBNode

section Claims

/-- Claim C1: building a tree by any sequence of `add` calls from the
empty tree succeeds with `invariant` returning true; since the sequence
is universally quantified, this holds after every single `add` (apply it
to each prefix). After any nonempty sequence the root node exists and
its color is BLACK. -/
theorem claim_C1 {α : Type} [LinearOrder α] (vs : List α) :
    ∃ t, addList vs = some t ∧ invariant t = true ∧
      (vs ≠ [] → ∃ x l r, t = RBNode.node x NodeColor.BLACK l r) := by
  obtain ⟨t, hrun, hG, hperm⟩ := addList_ok vs
  refine ⟨t, hrun, invariant_iff.mpr ⟨hG.1, hG.2.1, hG.2.2.1⟩, ?_⟩
  intro hne
  cases t with
  | nil =>
    exfalso
    have hlen : vs.length = 0 := by simpa [inorder] using hperm.length_eq.symm
    exact hne (List.length_eq_zero.mp hlen)
  | node x c l r =>
    have hrb := hG.1
    cases c with
    | RED => simp [rootBlack] at hrb
    | BLACK => exact ⟨x, l, r, rfl⟩

/-- Witness for the C1 theorem at a concrete insertion sequence. -/
theorem claim_C1_witness :
    ∃ t, addList ([3, 1, 2] : List Int) = some t ∧ invariant t = true ∧
      (([3, 1, 2] : List Int) ≠ [] →
        ∃ x l r, t = RBNode.node x NodeColor.BLACK l r) :=
  claim_C1 [3, 1, 2]

/-- Claim C2: after any sequence of `add` calls from the empty tree the
in-order traversal is sorted (non-decreasing) and is a permutation of
the multiset of inserted values (duplicates retained); moreover one more
`add` of `v` places `v` exactly after every existing value `≤ v`, i.e.
to the right of any equal existing value, never deduplicating. -/
theorem claim_C2 {α : Type} [LinearOrder α] (vs : List α) :
    ∃ t, addList vs = some t ∧ (inorder t).Sorted (· ≤ ·) ∧
      (inorder t).Perm vs ∧
      ∀ v : α, ∃ t', add t v = some t' ∧
        inorder t' = (inorder t).takeWhile (fun y => decide (y ≤ v)) ++
          v :: (inorder t).dropWhile (fun y => decide (y ≤ v)) := by
  obtain ⟨t, hrun, hG, hperm⟩ := addList_ok vs
  refine ⟨t, hrun, sorted_inorder hG.2.2.2, hperm, fun v => ?_⟩
  obtain ⟨t', hadd, -, hio⟩ := add_ok hG v
  exact ⟨t', hadd, hio⟩

/-- Claim C3: after any sequence of `add` calls from the empty tree,
membership (`__contains__`) answers true exactly for the values that
were added: true immediately after a value is added and still true after
arbitrarily many further `add` calls (instantiate `vs` with any later
sequence extending the earlier one), false for values never added. -/
theorem claim_C3 {α : Type} [LinearOrder α] (vs : List α) (v : α) :
    ∃ t, addList vs = some t ∧ (contains t v = true ↔ v ∈ vs) := by
  obtain ⟨t, hrun, hG, hperm⟩ := addList_ok vs
  exact ⟨t, hrun, by rw [contains_iff_mem hG.2.2.2]; exact hperm.mem_iff⟩

/-- Claim C4: after `n` `add` calls from the empty tree the depth of the
resulting tree is at most `2 * log2 (n+1)` (and this also holds for
`n = 0`). -/
theorem claim_C4 {α : Type} [LinearOrder α] (vs : List α) :
    ∃ t, addList vs = some t ∧ depth t ≤ 2 * Nat.log 2 (vs.length + 1) := by
  obtain ⟨t, hrun, hG, hperm⟩ := addList_ok vs
  have h := depth_le_log hG.1 hG.2.1 hG.2.2.1
  rw [size_eq_length_inorder, hperm.length_eq] at h
  exact ⟨t, hrun, h⟩

/-- Claim C5: no internal error escapes the public operations: every
`addList` run succeeds (so `add` never fails); whenever the fixup loop
is about to run its body (loop condition true in a reachable state, as
described by `FixInv`) the cursor path has length at least 2, `parent`
succeeds, both chained `up` calls succeed, and the whole body succeeds;
and the final root recoloring of `insertFix` never sees an absent
root. -/
theorem claim_C5 {α : Type} [LinearOrder α] :
    (∀ vs : List α, (addList vs).isSome) ∧
    (∀ w : NodeWalker α, FixInv w → fixCond w = true →
        2 ≤ w.dirs.length ∧ w.parent.isSome ∧
        (w.up.bind NodeWalker.up).isSome ∧ (fixBody w).isSome) ∧
    (∀ w : NodeWalker α, FixInv w → (insertFix w).isSome) := by
  refine ⟨?_, ?_, ?_⟩
  · intro vs
    obtain ⟨t, hrun, -, -⟩ := addList_ok vs
    simp [hrun]
  · intro w hI hc
    have hlen := FixInv_len2 hI hc
    have hne : w.dirs ≠ [] := by
      intro h
      rw [h] at hlen
      simp at hlen
    have hne2 : w.dirs.dropLast ≠ [] := by
      intro h
      have hlh := congrArg List.length h
      simp [List.length_dropLast] at hlh
      omega
    refine ⟨hlen, ?_, ?_, fixBody_isSome_of hI hc⟩
    · obtain ⟨-, pv, pl, pr, hP⟩ := fixCond_true_elim hc
      simp [NodeWalker.parent, hne, hP]
    · simp [NodeWalker.up, hne, hne2]
  · intro w hI
    obtain ⟨t', hfix, -, -⟩ := insertFix_ok hI
    simp [hfix]

/-- Witness for the C5 theorem: a concrete run plus a concrete reachable
loop state with a red parent two levels down. -/
theorem claim_C5_witness :
    (addList ([1, 2, 3] : List Int)).isSome ∧
    (2 ≤ (⟨RBNode.node 5 NodeColor.BLACK
          (RBNode.node 3 NodeColor.RED
            (RBNode.node 2 NodeColor.RED RBNode.nil RBNode.nil) RBNode.nil)
          RBNode.nil,
        [Direction.LEFT, Direction.LEFT], Direction.LEFT⟩ :
          NodeWalker Int).dirs.length ∧
      (⟨RBNode.node 5 NodeColor.BLACK
          (RBNode.node 3 NodeColor.RED
            (RBNode.node 2 NodeColor.RED RBNode.nil RBNode.nil) RBNode.nil)
          RBNode.nil,
        [Direction.LEFT, Direction.LEFT], Direction.LEFT⟩ :
          NodeWalker Int).parent.isSome ∧
      ((⟨RBNode.node 5 NodeColor.BLACK
          (RBNode.node 3 NodeColor.RED
            (RBNode.node 2 NodeColor.RED RBNode.nil RBNode.nil) RBNode.nil)
          RBNode.nil,
        [Direction.LEFT, Direction.LEFT], Direction.LEFT⟩ :
          NodeWalker Int).up.bind NodeWalker.up).isSome ∧
      (fixBody (⟨RBNode.node 5 NodeColor.BLACK
          (RBNode.node 3 NodeColor.RED
            (RBNode.node 2 NodeColor.RED RBNode.nil RBNode.nil) RBNode.nil)
          RBNode.nil,
        [Direction.LEFT, Direction.LEFT], Direction.LEFT⟩ :
          NodeWalker Int)).isSome) :=
  ⟨(claim_C5 (α := Int)).1 [1, 2, 3],
   (claim_C5 (α := Int)).2.1
     ⟨RBNode.node 5 NodeColor.BLACK
        (RBNode.node 3 NodeColor.RED
          (RBNode.node 2 NodeColor.RED RBNode.nil RBNode.nil) RBNode.nil)
        RBNode.nil,
      [Direction.LEFT, Direction.LEFT], Direction.LEFT⟩
     (FixInv_intro ⟨2, RBNode.nil, RBNode.nil, rfl⟩ (by decide) (by decide)
       (fun _ => by decide) (by decide))
     (by decide)⟩

end Claims

end RBT

namespace RBT

open RBNode

section ClaimsB

/-- Claim C6 counterexample: a reachable fixup-loop state (it arises,
mirrored, while adding the sequence 3, 1, 2 to the empty tree) in which
the dispatched arm is Case 2 — an inner-grandchild rotation case — yet
after the body runs the loop condition is still true, refuting the
parenthetical "the rotation cases end the loop": Case 2 performs a
rotation and the loop then runs another iteration (Case 3). -/
theorem claim_C6_counterexample :
    dispatchOf (⟨RBNode.node 3 NodeColor.BLACK
        (RBNode.node 1 NodeColor.RED RBNode.nil
          (RBNode.node 2 NodeColor.RED RBNode.nil RBNode.nil))
        RBNode.nil,
      [Direction.LEFT, Direction.RIGHT], Direction.RIGHT⟩ :
        NodeWalker Int) = some FixCase.two ∧
    FixInv (⟨RBNode.node 3 NodeColor.BLACK
        (RBNode.node 1 NodeColor.RED RBNode.nil
          (RBNode.node 2 NodeColor.RED RBNode.nil RBNode.nil))
        RBNode.nil,
      [Direction.LEFT, Direction.RIGHT], Direction.RIGHT⟩ :
        NodeWalker Int) ∧
    fixCond (⟨RBNode.node 3 NodeColor.BLACK
        (RBNode.node 1 NodeColor.RED RBNode.nil
          (RBNode.node 2 NodeColor.RED RBNode.nil RBNode.nil))
        RBNode.nil,
      [Direction.LEFT, Direction.RIGHT], Direction.RIGHT⟩ :
        NodeWalker Int) = true ∧
    fixBody (⟨RBNode.node 3 NodeColor.BLACK
        (RBNode.node 1 NodeColor.RED RBNode.nil
          (RBNode.node 2 NodeColor.RED RBNode.nil RBNode.nil))
        RBNode.nil,
      [Direction.LEFT, Direction.RIGHT], Direction.RIGHT⟩ :
        NodeWalker Int) =
      some ⟨RBNode.node 3 NodeColor.BLACK
          (RBNode.node 2 NodeColor.RED
            (RBNode.node 1 NodeColor.RED RBNode.nil RBNode.nil) RBNode.nil)
          RBNode.nil,
        [Direction.LEFT, Direction.LEFT], Direction.RIGHT⟩ ∧
    fixCond (⟨RBNode.node 3 NodeColor.BLACK
        (RBNode.node 2 NodeColor.RED
          (RBNode.node 1 NodeColor.RED RBNode.nil RBNode.nil) RBNode.nil)
        RBNode.nil,
      [Direction.LEFT, Direction.LEFT], Direction.RIGHT⟩ :
        NodeWalker Int) = true :=
  ⟨by decide,
   FixInv_intro ⟨2, RBNode.nil, RBNode.nil, rfl⟩ (by decide) (by decide)
     (fun _ => by decide) (by decide),
   by decide, by decide, by decide⟩

/-- Claim C6 (amended): every `add` terminates — `addList` always
succeeds, and from any reachable loop state (`FixInv`) the fixup loop
completes within `dirs.length + 2` iterations (extra fuel does not
change the result). The corrected per-case accounting: the recoloring
case (1/1') shortens the cursor path by exactly two, the
outer-grandchild rotation case (3/3') ends the loop, but the
inner-grandchild rotation case (2/2') does not end the loop — the loop
condition still holds afterwards and the next dispatched arm is the
outer rotation case (3/3'), which then ends it. -/
theorem claim_C6 {α : Type} [LinearOrder α] :
    (∀ vs : List α, (addList vs).isSome) ∧
    (∀ (w : NodeWalker α) (n : Nat), FixInv w → w.dirs.length + 2 ≤ n →
        (fixLoop n w).isSome ∧
        fixLoop n w = fixLoop (w.dirs.length + 2) w) ∧
    (∀ w w' : NodeWalker α, FixInv w → fixCond w = true →
        fixBody w = some w' →
        (((dispatchOf w = some FixCase.one ∨
              dispatchOf w = some FixCase.oneM) →
            w'.dirs.length + 2 = w.dirs.length) ∧
         ((dispatchOf w = some FixCase.three ∨
              dispatchOf w = some FixCase.threeM) →
            fixCond w' = false) ∧
         ((dispatchOf w = some FixCase.two ∨
              dispatchOf w = some FixCase.twoM) →
            fixCond w' = true ∧
            (dispatchOf w' = some FixCase.three ∨
              dispatchOf w' = some FixCase.threeM)))) := by
  refine ⟨?_, ?_, ?_⟩
  · intro vs
    obtain ⟨t, hrun, -, -⟩ := addList_ok vs
    simp [hrun]
  · intro w n hI hlen
    obtain ⟨w2, hrun2, -, -, -, -, -⟩ :=
      fixLoop_run (w.dirs.length + 2) w hI (le_refl _)
    have hrunN := fixLoop_le hlen hrun2
    exact ⟨by simp [hrunN], by rw [hrunN, hrun2]⟩
  · intro w w' hI hc hbody
    obtain ⟨w'', hbody'', hcases⟩ := fixStep_classify hI hc
    rw [hbody] at hbody''
    obtain rfl := Option.some.inj hbody''
    rcases hcases with ⟨hd, hfact⟩ | ⟨hd, hfact⟩ | ⟨hd, hfact⟩
    · refine ⟨fun _ => hfact, fun h => ?_, fun h => ?_⟩ <;>
        (rcases hd with hd | hd <;> rcases h with h | h <;>
          rw [hd] at h <;> simp at h)
    · refine ⟨fun h => ?_, fun _ => hfact, fun h => ?_⟩ <;>
        (rcases hd with hd | hd <;> rcases h with h | h <;>
          rw [hd] at h <;> simp at h)
    · refine ⟨fun h => ?_, fun h => ?_, fun _ => hfact⟩ <;>
        (rcases hd with hd | hd <;> rcases h with h | h <;>
          rw [hd] at h <;> simp at h)

/-- Witness for the amended C6 theorem: a concrete run and a concrete
loop state with excess fuel. -/
theorem claim_C6_witness :
    (addList ([4, 5, 6] : List Int)).isSome ∧
    ((fixLoop 5 (⟨RBNode.node 7 NodeColor.RED RBNode.nil RBNode.nil, [],
        Direction.LEFT⟩ : NodeWalker Int)).isSome ∧
      fixLoop 5 (⟨RBNode.node 7 NodeColor.RED RBNode.nil RBNode.nil, [],
          Direction.LEFT⟩ : NodeWalker Int) =
        fixLoop ((⟨RBNode.node 7 NodeColor.RED RBNode.nil RBNode.nil, [],
            Direction.LEFT⟩ : NodeWalker Int).dirs.length + 2)
          ⟨RBNode.node 7 NodeColor.RED RBNode.nil RBNode.nil, [],
            Direction.LEFT⟩) :=
  ⟨(claim_C6 (α := Int)).1 [4, 5, 6],
   (claim_C6 (α := Int)).2.1
     ⟨RBNode.node 7 NodeColor.RED RBNode.nil RBNode.nil, [], Direction.LEFT⟩
     5
     (FixInv_intro ⟨7, RBNode.nil, RBNode.nil, rfl⟩ (by decide) (by decide)
       (fun h => absurd rfl h) (by decide))
     (by decide)⟩

end ClaimsB

end RBT

namespace RBT

open RBNode

section ClaimsC

/-- Claim C7: left rotation at a node X (value `xv`, color `xc`) with
right child Y (value `yv`, color `yc`) puts into X's former slot a
subtree rooted at Y's value and color, whose left child carries X's
value and color with X's former left child unchanged and Y's former
left child as its right child, and whose right child is Y's former
right child; the cursor follows X (one step left). The in-order value
sequence of the rotated subtree equals the original, and the colors
paired with X's and Y's values are unchanged. Right rotation is the
exact mirror. -/
theorem claim_C7 {α : Type} (w u : NodeWalker α)
    (xv yv av bv : α) (xc yc ac bc : NodeColor)
    (xl yl yr al ar br : RBNode α)
    (hx : w.current = some (RBNode.node xv xc xl (RBNode.node yv yc yl yr)))
    (hy : u.current = some (RBNode.node bv bc (RBNode.node av ac al ar) br)) :
    (leftRotate w = some ⟨replaceAt w.tree w.dirs
        (RBNode.node yv yc (RBNode.node xv xc xl yl) yr),
      w.dirs ++ [Direction.LEFT], w.leafDirection⟩ ∧
     inorder (RBNode.node yv yc (RBNode.node xv xc xl yl) yr) =
       inorder (RBNode.node xv xc xl (RBNode.node yv yc yl yr))) ∧
    (rightRotate u = some ⟨replaceAt u.tree u.dirs
        (RBNode.node av ac al (RBNode.node bv bc ar br)),
      u.dirs ++ [Direction.RIGHT], u.leafDirection⟩ ∧
     inorder (RBNode.node av ac al (RBNode.node bv bc ar br)) =
       inorder (RBNode.node bv bc (RBNode.node av ac al ar) br)) := by
  obtain ⟨t, q, ld⟩ := w
  obtain ⟨t', q', ld'⟩ := u
  exact ⟨⟨leftRotate_eval hx, by simp [inorder]⟩,
         ⟨rightRotate_eval hy, by simp [inorder]⟩⟩

/-- Witness for the C7 theorem: concrete left and right rotations. -/
theorem claim_C7_witness :
    (leftRotate (⟨RBNode.node (1 : Int) NodeColor.BLACK RBNode.nil
          (RBNode.node 2 NodeColor.RED RBNode.nil RBNode.nil), [],
        Direction.LEFT⟩ : NodeWalker Int) =
        some ⟨RBNode.node 2 NodeColor.RED
            (RBNode.node 1 NodeColor.BLACK RBNode.nil RBNode.nil) RBNode.nil,
          [Direction.LEFT], Direction.LEFT⟩ ∧
      inorder (RBNode.node (2 : Int) NodeColor.RED
          (RBNode.node 1 NodeColor.BLACK RBNode.nil RBNode.nil) RBNode.nil) =
        inorder (RBNode.node (1 : Int) NodeColor.BLACK RBNode.nil
          (RBNode.node 2 NodeColor.RED RBNode.nil RBNode.nil))) ∧
    (rightRotate (⟨RBNode.node (4 : Int) NodeColor.BLACK
          (RBNode.node 3 NodeColor.RED RBNode.nil RBNode.nil) RBNode.nil, [],
        Direction.LEFT⟩ : NodeWalker Int) =
        some ⟨RBNode.node 3 NodeColor.RED RBNode.nil
            (RBNode.node 4 NodeColor.BLACK RBNode.nil RBNode.nil),
          [Direction.RIGHT], Direction.LEFT⟩ ∧
      inorder (RBNode.node (3 : Int) NodeColor.RED RBNode.nil
          (RBNode.node 4 NodeColor.BLACK RBNode.nil RBNode.nil)) =
        inorder (RBNode.node (4 : Int) NodeColor.BLACK
          (RBNode.node 3 NodeColor.RED RBNode.nil RBNode.nil) RBNode.nil)) :=
  claim_C7
    ⟨RBNode.node 1 NodeColor.BLACK RBNode.nil
        (RBNode.node 2 NodeColor.RED RBNode.nil RBNode.nil), [],
      Direction.LEFT⟩
    ⟨RBNode.node 4 NodeColor.BLACK
        (RBNode.node 3 NodeColor.RED RBNode.nil RBNode.nil) RBNode.nil, [],
      Direction.LEFT⟩
    1 2 3 4 NodeColor.BLACK NodeColor.RED NodeColor.RED NodeColor.BLACK
    RBNode.nil RBNode.nil RBNode.nil RBNode.nil RBNode.nil RBNode.nil
    rfl rfl

/-- Claim C8: the `invariant` checker returns true exactly when the
three structural red-black conditions hold — root (if present) BLACK,
no RED node with a RED child (absent children counting as BLACK via
`noRedRed`), and equal black-count on every path as computed bottom-up
by `bpbalance` (absent child has black-height 1, a node adds 1 when
BLACK, mismatch propagates as `none`); the empty tree satisfies the
invariant. -/
theorem claim_C8 {α : Type} (t : RBNode α) :
    (invariant t = true ↔
      (rootBlack t = true ∧ noRedRed t = true ∧
        (bpbalance t).isSome = true)) ∧
    invariant (RBNode.nil : RBNode α) = true :=
  ⟨invariant_iff, rfl⟩

/-- Claim C9: on a walker whose path is structurally valid (the current
slot exists), `parent` and `up` fail exactly at the root; a successful
`up` pops the path's last direction; `left` and `right` fail exactly
when the current position is the empty marker, and otherwise push the
corresponding direction, setting `leafDirection` to the pushed side
exactly when the pushed child is absent. -/
theorem claim_C9 {α : Type} (w : NodeWalker α)
    (hWF : (subtreeAt w.tree w.dirs).isSome) :
    (w.parent = none ↔ w.dirs = []) ∧
    (w.up = none ↔ w.dirs = []) ∧
    (∀ w', w.up = some w' →
      w' = ⟨w.tree, w.dirs.dropLast, w.leafDirection⟩) ∧
    ((w.left = none ↔ w.current = some RBNode.nil) ∧
     (w.right = none ↔ w.current = some RBNode.nil)) ∧
    (∀ v c l r, w.current = some (RBNode.node v c l r) →
      w.left = some ⟨w.tree, w.dirs ++ [Direction.LEFT],
        match l with | RBNode.nil => Direction.LEFT | _ => w.leafDirection⟩ ∧
      w.right = some ⟨w.tree, w.dirs ++ [Direction.RIGHT],
        match r with
        | RBNode.nil => Direction.RIGHT | _ => w.leafDirection⟩) := by
  obtain ⟨g, hg⟩ := Option.isSome_iff_exists.mp hWF
  have hcur : w.current = some g := hg
  refine ⟨?_, ?_, ?_, ?_, ?_⟩
  · constructor
    · intro hp
      by_contra hne
      obtain ⟨m, hm, -⟩ := subtreeAt_append_some
        (p := [w.dirs.getLast hne])
        (by rw [List.dropLast_append_getLast hne]; exact hg)
      rw [NodeWalker.parent, if_neg hne, hm] at hp
      exact Option.noConfusion hp
    · intro h
      simp [NodeWalker.parent, h]
  · constructor
    · intro hp
      by_contra hne
      rw [NodeWalker.up, if_neg hne] at hp
      exact Option.noConfusion hp
    · intro h
      simp [NodeWalker.up, h]
  · intro w' h
    by_cases hne : w.dirs = []
    · rw [NodeWalker.up, if_pos hne] at h
      exact Option.noConfusion h
    · rw [NodeWalker.up, if_neg hne] at h
      obtain rfl := Option.some.inj h
      rfl
  · cases g with
    | nil => simp [NodeWalker.left, NodeWalker.right, NodeWalker.current, hg]
    | node v c l r =>
      simp [NodeWalker.left, NodeWalker.right, NodeWalker.current, hg]
  · intro v c l r h
    rw [hcur] at h
    obtain rfl := Option.some.inj h
    refine ⟨?_, ?_⟩ <;> simp only [NodeWalker.left, NodeWalker.right, hg]

/-- Witness for the C9 theorem: a concrete walker standing on an empty
slot below a real parent. -/
theorem claim_C9_witness :
    ((⟨RBNode.node (5 : Int) NodeColor.BLACK
          (RBNode.node 3 NodeColor.RED RBNode.nil RBNode.nil) RBNode.nil,
        [Direction.RIGHT], Direction.LEFT⟩ : NodeWalker Int).parent = none ↔
      ([Direction.RIGHT] : List Direction) = []) ∧
    ((⟨RBNode.node (5 : Int) NodeColor.BLACK
          (RBNode.node 3 NodeColor.RED RBNode.nil RBNode.nil) RBNode.nil,
        [Direction.RIGHT], Direction.LEFT⟩ : NodeWalker Int).up = none ↔
      ([Direction.RIGHT] : List Direction) = []) ∧
    ((⟨RBNode.node (5 : Int) NodeColor.BLACK
          (RBNode.node 3 NodeColor.RED RBNode.nil RBNode.nil) RBNode.nil,
        [Direction.RIGHT], Direction.LEFT⟩ : NodeWalker Int).left = none ↔
      (⟨RBNode.node (5 : Int) NodeColor.BLACK
          (RBNode.node 3 NodeColor.RED RBNode.nil RBNode.nil) RBNode.nil,
        [Direction.RIGHT], Direction.LEFT⟩ : NodeWalker Int).current =
        some RBNode.nil) ∧
    ((⟨RBNode.node (5 : Int) NodeColor.BLACK
          (RBNode.node 3 NodeColor.RED RBNode.nil RBNode.nil) RBNode.nil,
        [Direction.RIGHT], Direction.LEFT⟩ : NodeWalker Int).right = none ↔
      (⟨RBNode.node (5 : Int) NodeColor.BLACK
          (RBNode.node 3 NodeColor.RED RBNode.nil RBNode.nil) RBNode.nil,
        [Direction.RIGHT], Direction.LEFT⟩ : NodeWalker Int).current =
        some RBNode.nil) :=
  ⟨(claim_C9
      ⟨RBNode.node 5 NodeColor.BLACK
          (RBNode.node 3 NodeColor.RED RBNode.nil RBNode.nil) RBNode.nil,
        [Direction.RIGHT], Direction.LEFT⟩ (by decide)).1,
   (claim_C9
      ⟨RBNode.node 5 NodeColor.BLACK
          (RBNode.node 3 NodeColor.RED RBNode.nil RBNode.nil) RBNode.nil,
        [Direction.RIGHT], Direction.LEFT⟩ (by decide)).2.1,
   (claim_C9
      ⟨RBNode.node 5 NodeColor.BLACK
          (RBNode.node 3 NodeColor.RED RBNode.nil RBNode.nil) RBNode.nil,
        [Direction.RIGHT], Direction.LEFT⟩ (by decide)).2.2.2.1.1,
   (claim_C9
      ⟨RBNode.node 5 NodeColor.BLACK
          (RBNode.node 3 NodeColor.RED RBNode.nil RBNode.nil) RBNode.nil,
        [Direction.RIGHT], Direction.LEFT⟩ (by decide)).2.2.2.1.2⟩

/-- Claim C10: the depth of the empty tree is 0 (spec convention for an
absent root), and the depth of a node is 1 plus the maximum of its
children's depths, an absent child contributing 0. -/
theorem claim_C10 {α : Type} :
    depth (RBNode.nil : RBNode α) = 0 ∧
      ∀ (v : α) (c : NodeColor) (l r : RBNode α),
        depth (RBNode.node v c l r) = 1 + max (depth l) (depth r) := by
  refine ⟨rfl, fun v c l r => ?_⟩
  simp only [depth]
  rw [Nat.zero_max, Nat.add_comm]

end ClaimsC

end RBT
